import Mathlib

/-!
# hpe-ssacli exporter: collection and parsing pipeline

A shallow embedding of `main.go` (the Prometheus exporter for `ssacli`) and
theorems about its parsing and collection functions.

Conventions of the embedding

* Go strings are Lean `String`s (valid UTF-8 text); the functions work on the
  list of characters.
* The Go standard library is modelled from its documented behaviour:
  `strings.Cut`, `strconv.Atoi`, `strconv.ParseFloat`, `regexp` (leftmost-first
  matching, greedy repetition, successive non-overlapping matches), and
  IEEE-754 binary64 arithmetic with round-to-nearest-even.
* A finite `float64` is a sign and a natural number `n` standing for
  `n * 2^(-1074)`: every finite binary64 value is such a multiple.
* `int` is the 64-bit Go `int`.
* A run-time panic (index out of range) is the result `none`.
* The external command `ssacli` is an environment mapping the argument list to
  its output or to a failure.
-/

set_option exponentiation.threshold 100000

namespace HpeSsacli

/-! ## strings.Cut -/

/-- Model of `strings.Cut(s, sep)` for a one-character separator: the text before
the first separator, the text after it, and whether the separator was found. -/
def Cut : List Char → Char → List Char × List Char × Bool
  | [], _ => ([], [], false)
  | c :: cs, sep =>
    if c = sep then ([], cs, true)
    else
      let r := Cut cs sep
      (c :: r.1, r.2.1, r.2.2)

/-! ## strconv.Atoi -/

/-- Value of a run of decimal digits, `none` when a character is not a digit. -/
def digitsVal : List Char → Nat → Option Nat
  | [], acc => some acc
  | c :: cs, acc => if c.isDigit then digitsVal cs (acc * 10 + (c.toNat - 48)) else none

/-- Model of `strconv.Atoi` on a 64-bit platform: an optional sign followed by
at least one decimal digit, in the range of `int`; `none` is a non-nil error
(`ErrSyntax` or `ErrRange`). -/
def Atoi (s : List Char) : Option Int :=
  match s with
  | [] => none
  | c :: cs =>
    let body := if c = '-' ∨ c = '+' then cs else s
    if body = [] then none
    else
      match digitsVal body 0 with
      | none => none
      | some v =>
        if c = '-' then (if v ≤ 2 ^ 63 then some (-(v : Int)) else none)
        else (if v < 2 ^ 63 then some (v : Int) else none)

/-! ## float64 -/

/-- A binary64 value. `fin neg n` is the finite value `(-1)^neg * n * 2^(-1074)`. -/
inductive F64 where
  | nan : F64
  | inf (neg : Bool) : F64
  | fin (neg : Bool) (n : Nat) : F64
  deriving DecidableEq, Repr

/-- Number of low bits that do not fit in a 53-bit significand: the largest `t`
(found by binary search, `t < 4096`) with `2^(52+t) ≤ q`, and `0` if there is none. -/
def shiftOf (q : Nat) : Nat :=
  [2048, 1024, 512, 256, 128, 64, 32, 16, 8, 4, 2, 1].foldl
    (fun sh k => if 2 ^ (52 + sh + k) ≤ q then sh + k else sh) 0

/-- Nearest integer to `a / b`, ties to even. -/
def rne (a b : Nat) : Nat :=
  let q := a / b
  let r := a % b
  if 2 * r < b then q else if b < 2 * r then q + 1 else if q % 2 = 0 then q else q + 1

/-- Round the non-negative rational `num / den` to binary64 (round to nearest,
ties to even); the result is in units of `2^(-1074)` and may exceed the largest
finite value, which the callers treat as overflow. -/
def roundFix (num den : Nat) : Nat :=
  let a := num * 2 ^ 1074
  let sh := shiftOf (a / den)
  rne a (den * 2 ^ sh) * 2 ^ sh

/-- First value (in units of `2^(-1074)`) that is not a finite binary64: `2^1024`. -/
def overflowBound : Nat := 2 ^ 2098

/-- IEEE-754 binary64 multiplication, as the Go operator `*` on `float64`. -/
def F64.mul : F64 → F64 → F64
  | .nan, _ => .nan
  | _, .nan => .nan
  | .inf s, .inf t => .inf (s != t)
  | .inf s, .fin t n => if n = 0 then .nan else .inf (s != t)
  | .fin s n, .inf t => if n = 0 then .nan else .inf (s != t)
  | .fin s a, .fin t b =>
    let r := roundFix (a * b) (2 ^ 1074 * 2 ^ 1074)
    if r < overflowBound then .fin (s != t) r else .inf (s != t)

/-- The `float64` constant with natural value `k` (exact for the small constants used). -/
def F64.ofNat (k : Nat) : F64 := .fin false (k * 2 ^ 1074)

/-- Smallest `int`, which is also what the amd64 conversion instruction yields
for NaN, infinities and values out of range. -/
def minInt : Int := -((2 ^ 63 : Nat) : Int)

/-- The Go conversion `int(f)`: the fraction is discarded (truncation toward
zero). When the value does not fit in `int` the Go specification leaves the
result implementation-dependent; the amd64 result is modelled. -/
def F64.toInt : F64 → Int
  | .fin s n =>
    let t : Nat := n / 2 ^ 1074
    if s then (if t ≤ 2 ^ 63 then -(t : Int) else minInt)
    else (if t < 2 ^ 63 then (t : Int) else minInt)
  | _ => minInt

/-- The Go conversion `float64(i)` of an `int`. -/
def F64.ofInt (i : Int) : F64 := .fin (decide (i < 0)) (roundFix i.natAbs 1)

/-! ## strconv.ParseFloat -/

/-- Go `commonPrefixLenIgnoreCase`: length of the common prefix of `s` and the
lower-case word `w`, ASCII letters of `s` compared without case. -/
def commonPrefixLenIgnoreCase : List Char → List Char → Nat
  | c :: cs, p :: ps => if c.toLower = p then commonPrefixLenIgnoreCase cs ps + 1 else 0
  | _, _ => 0

/-- The `inf` / `infinity` case of Go `special`: anything longer than `inf` that
is not the whole word `infinity` consumes only `inf`. -/
def specialInf (neg : Bool) (nsign : Nat) (s : List Char) : Option (F64 × Nat) :=
  let n := commonPrefixLenIgnoreCase s "infinity".toList
  let n := if 3 < n ∧ n < 8 then 3 else n
  if n = 3 ∨ n = 8 then some (.inf neg, nsign + n) else none

/-- Go `special`: the special value at the start of `s` and the number of
characters it takes. A sign is accepted before `inf` only. -/
def special (s : List Char) : Option (F64 × Nat) :=
  match s with
  | [] => none
  | c :: cs =>
    if c = '+' ∨ c = '-' then specialInf (c = '-') 1 cs
    else if c = 'i' ∨ c = 'I' then specialInf false 0 s
    else if c = 'n' ∨ c = 'N' then
      (if commonPrefixLenIgnoreCase s "nan".toList = 3 then some (.nan, 3) else none)
    else none

/-- Whether `c` is one of the letters `a`-`f`, `A`-`F`. -/
def isHexLetter (c : Char) : Bool := 97 ≤ c.toLower.toNat && c.toLower.toNat ≤ 102

/-- State of the digit loop of Go `readFloat`; the mantissa is kept exactly and
`frac` counts the digits read after the point. -/
structure Digits where
  sawdot : Bool
  sawdigits : Bool
  underscores : Bool
  mantissa : Nat
  frac : Nat

/-- The digit loop of Go `readFloat`: digits, at most one point, underscores;
stops at the first other character and returns the unread text. -/
def readDigits (hex : Bool) : List Char → Digits → Digits × List Char
  | [], d => (d, [])
  | c :: cs, d =>
    if c = '_' then readDigits hex cs { d with underscores := true }
    else if c = '.' then
      (if d.sawdot then (d, c :: cs) else readDigits hex cs { d with sawdot := true })
    else if c.isDigit then
      readDigits hex cs
        { d with
          sawdigits := true
          mantissa := d.mantissa * (if hex then 16 else 10) + (c.toNat - 48)
          frac := if d.sawdot then d.frac + 1 else d.frac }
    else if hex ∧ isHexLetter c then
      readDigits hex cs
        { d with
          sawdigits := true
          mantissa := d.mantissa * 16 + (c.toLower.toNat - 87)
          frac := if d.sawdot then d.frac + 1 else d.frac }
    else (d, c :: cs)

/-- The exponent loop of Go `readFloat`: digits and underscores; the exponent
stops growing once it has reached 10000. -/
def readExp : List Char → Nat → Bool → Nat × Bool × List Char
  | [], e, u => (e, u, [])
  | c :: cs, e, u =>
    if c = '_' then readExp cs e true
    else if c.isDigit then readExp cs (if e < 10000 then e * 10 + (c.toNat - 48) else e) u
    else (e, u, c :: cs)

/-- The scan of Go `underscoreOK`; `saw` is the kind of the last character:
`'0'` a digit (or base prefix), `'_'` an underscore, `'!'` anything else,
`'^'` the beginning. -/
def underscoreLoop (hex : Bool) : List Char → Char → Bool
  | [], saw => saw != '_'
  | c :: cs, saw =>
    if c.isDigit ∨ (hex ∧ isHexLetter c) then underscoreLoop hex cs '0'
    else if c = '_' then (if saw != '0' then false else underscoreLoop hex cs '_')
    else if saw = '_' then false
    else underscoreLoop hex cs '!'

/-- Go `underscoreOK`: underscores must separate digits or follow a base prefix. -/
def underscoreOK (s : List Char) : Bool :=
  let t :=
    match s with
    | c :: cs => if c = '-' ∨ c = '+' then cs else s
    | [] => s
  match t with
  | a :: b :: rest =>
    if a = '0' ∧ (b.toLower = 'b' ∨ b.toLower = 'o' ∨ b.toLower = 'x') then
      underscoreLoop (b.toLower = 'x') rest '0'
    else underscoreLoop false t '^'
  | _ => underscoreLoop false t '^'

/-- A rounded value as a result of `ParseFloat`: `none` (`ErrRange`) when it is
not finite. -/
def finiteOrRange (neg : Bool) (n : Nat) : Option F64 :=
  if n < overflowBound then some (.fin neg n) else none

/-- The value `mant * base^(±e - frac digits)` rounded to binary64; `none` is
`ErrRange` (the rounded value is not finite). Base 10 for decimal text, and for
hexadecimal text a binary exponent with four bits per fraction digit. -/
def assemble (neg hex : Bool) (mant frac e : Nat) (eneg : Bool) : Option F64 :=
  let base := if hex then 2 else 10
  let down := (if hex then 4 * frac else frac) + (if eneg then e else 0)
  let up := if eneg then 0 else e
  finiteOrRange neg (roundFix (mant * base ^ up) (base ^ down))

/-- End of `ParseFloat`: the whole text must have been read and the underscores
must be well placed. -/
def finish (s : List Char) (neg hex : Bool) (d : Digits) (e : Nat) (eneg : Bool)
    (underscores : Bool) (rest : List Char) : Option F64 :=
  if rest ≠ [] then none
  else if underscores ∧ ¬ underscoreOK s then none
  else assemble neg hex d.mantissa d.frac e eneg

/-- The test of Go `readFloat` for a hexadecimal mantissa: `0x` or `0X` followed
by at least one more character. -/
def hasHexPrefix : List Char → Bool
  | a :: b :: _ :: _ => a = '0' ∧ b.toLower = 'x'
  | _ => false

/-- Model of `strconv.ParseFloat(s, 64)`: `some f` when the error is nil, `none`
when it is not (`ErrSyntax`, or `ErrRange` for a value that rounds to an
infinity). Accepts what the Go documentation lists: decimal and hexadecimal
floating-point text with an optional sign and underscores between digits,
`inf`, `infinity` and `nan` in any letter case; the result is the nearest
binary64, ties to even. -/
def ParseFloat (s : List Char) : Option F64 :=
  match special s with
  | some (f, n) => if n = s.length then some f else none
  | none =>
    match s with
    | [] => none
    | c :: cs =>
      let t := if c = '+' ∨ c = '-' then cs else s
      let hex := hasHexPrefix t
      let r := readDigits hex (if hex then t.drop 2 else t) ⟨false, false, false, 0, 0⟩
      if ¬ r.1.sawdigits then none
      else
        match r.2 with
        | [] => if hex then none else finish s (c = '-') hex r.1 0 false r.1.underscores []
        | x :: xs =>
          if x.toLower = (if hex then 'p' else 'e') then
            match xs with
            | [] => none
            | y :: ys =>
              let digits := if y = '+' ∨ y = '-' then ys else xs
              match digits with
              | [] => none
              | z :: _ =>
                if z.isDigit then
                  let q := readExp digits 0 r.1.underscores
                  finish s (c = '-') hex r.1 q.1 (y = '-') q.2.1 q.2.2
                else none
          else none

/-! ## regexp -/

/-- One-character items of a pattern: a literal character, `\d` (ASCII digit),
and `.` (any character but a newline). -/
inductive CharClass where
  | chr (c : Char) : CharClass
  | digit : CharClass
  | dot : CharClass

/-- Whether a character belongs to the class. -/
def CharClass.test : CharClass → Char → Bool
  | .chr c, x => x = c
  | .digit, x => x.isDigit
  | .dot, x => x != '\n'

/-- The fragment of regular expressions used by main.go: concatenation, greedy
repetition of a one-character item, and capture groups (none nested). -/
inductive Re where
  | eps : Re
  | one (c : CharClass) : Re
  | star (c : CharClass) : Re
  | seq (a b : Re) : Re
  | cap (a : Re) : Re

/-- The pattern matching the literal text `s`. -/
def Re.str (s : String) : Re :=
  s.toList.foldr (fun c r => Re.seq (Re.one (CharClass.chr c)) r) Re.eps

/-- Concatenation of a list of patterns. -/
def Re.cat (rs : List Re) : Re := rs.foldr Re.seq Re.eps

/-- Pattern `c+`, written as `c c*`. -/
def Re.plus (c : CharClass) : Re := Re.seq (Re.one c) (Re.star c)

/-- Greedy repetition with backtracking: take as many characters of the class
as possible, and give one back each time the continuation fails. -/
def starRun {α : Type} (c : CharClass) (k : List Char → Option α) : List Char → Option α
  | [] => k []
  | x :: xs =>
    if c.test x then
      match starRun c k xs with
      | some r => some r
      | none => k (x :: xs)
    else k (x :: xs)

/-- Backtracking matcher in continuation-passing style: `run re s g k` matches
`re` at the start of `s` and passes the unread text and the captures (`g`
extended by the groups closed so far, in order) to `k`; the first success in
backtracking order is the leftmost-first match of Go `regexp`. -/
def Re.run {α : Type} : Re → List Char → List (List Char) →
    (List Char → List (List Char) → Option α) → Option α
  | .eps, s, g, k => k s g
  | .one c, s, g, k =>
    match s with
    | [] => none
    | x :: xs => if c.test x then k xs g else none
  | .star c, s, g, k => starRun c (fun t => k t g) s
  | .seq a b, s, g, k => a.run s g (fun t h => b.run t h k)
  | .cap a, s, g, k => a.run s g (fun t h => k t (h ++ [s.take (s.length - t.length)]))

/-- Match `re` at the start of `s`: the capture groups and the unread text. -/
def Re.exec (re : Re) (s : List Char) : Option (List (List Char) × List Char) :=
  re.run s [] (fun t g => some (g, t))

/-- Successive non-overlapping matches, left to right. `skip` is the number of
characters still covered by the previous match. Each match is the list of the
whole matched text followed by the capture groups. (Both patterns of main.go
need at least one character, so no match is looked for at the end of text.) -/
def findAll (re : Re) : Nat → List Char → List (List String)
  | _, [] => []
  | skip + 1, _ :: xs => findAll re skip xs
  | 0, x :: xs =>
    match re.exec (x :: xs) with
    | none => findAll re 0 xs
    | some (g, rest) =>
      ((x :: xs).take ((x :: xs).length - rest.length) :: g).map String.mk
        :: findAll re (xs.length - rest.length) xs

/-- Model of `re.FindAllSubmatch(out, -1)`. -/
def FindAllSubmatch (re : Re) (out : String) : List (List String) :=
  findAll re 0 out.toList

/-! ## main.go: ParseCapacity and ParseStatus -/

/-- Function `ParseCapacity` of main.go. `none` is the index-out-of-range panic of
`suf[0]` on an empty suffix. -/
def ParseCapacity (s : String) : Option Int :=
  let c := Cut s.toList ' '
  let num_str := c.1
  let suf := c.2.1
  let found := c.2.2
  match ParseFloat num_str with
  | none => some (-1)
  | some num =>
    if ¬ found then some (-1)
    else
      match suf with
      | [] => none
      | u :: _ =>
        if u = 'T' then some ((num.mul (F64.ofNat 1024)).mul (F64.ofNat 1024)).toInt
        else if u = 'G' then some (num.mul (F64.ofNat 1024)).toInt
        else if u = 'M' then some num.toInt
        else some num.toInt

/-- Function `ParseStatus` of main.go. -/
def ParseStatus (s : String) : Int :=
  if s = "OK" then 0 else 1

/-! ## main.go: the metrics and the collector -/

/-- Outcome of running `ssacli`: the output of `ctrl all show` and, for each
slot, of `ctrl slot=<n> ld all show`; `none` is a non-nil error of
`exec.Command(...).Output()`. -/
structure Env where
  ctrlAllShow : Option String
  ldAllShow : Int → Option String

/-- Label values `controller_slot` and `logical_device_number` (the integers
whose `strconv.Itoa` text the Go code uses as labels). -/
abbrev Labels := Int × Int

/-- The gauges of `metrics` in main.go: each gauge vector maps the labels of its
existing children to their value. -/
structure Metrics where
  numControllers : F64
  ldStatus : Labels → Option F64
  ldCapacity : Labels → Option F64
  ldRaid : Labels → Option F64

/-- The call `vec.With(labels).Set(v)` on a gauge vector. -/
def gaugeSet (vec : Labels → Option F64) (labels : Labels) (v : F64) : Labels → Option F64 :=
  fun l => if l = labels then some v else vec l

/-- Pattern `Slot (\d+)`. -/
def controllerSlotRegex : Re :=
  Re.cat [Re.str "Slot ", Re.cap (Re.plus CharClass.digit)]

/-- Method `CollectControllerCount` of main.go: the slots returned and the metrics after the call. -/
def CollectControllerCount (env : Env) (m : Metrics) : List Int × Metrics :=
  match env.ctrlAllShow with
  | none => ([], m)
  | some out =>
    let matches_ := FindAllSubmatch controllerSlotRegex out
    let slots := matches_.foldl
      (fun slots mt =>
        match Atoi (mt.getD 1 "").toList with
        | none => slots
        | some slot => slots ++ [slot]) []
    (slots, { m with numControllers := F64.ofInt matches_.length })

/-- Pattern `logicaldrive (\d+) \((.*B), RAID (.*), (.*)\)`. -/
def logicalDriveRegex : Re :=
  Re.cat [Re.str "logicaldrive ", Re.cap (Re.plus CharClass.digit), Re.str " (",
    Re.cap (Re.seq (Re.star CharClass.dot) (Re.one (CharClass.chr 'B'))), Re.str ", RAID ",
    Re.cap (Re.star CharClass.dot), Re.str ", ", Re.cap (Re.star CharClass.dot), Re.str ")"]

/-- Body of the loop of `CollectLogicalDrives` for one match. -/
def driveStep (slot : Int) (m : Metrics) (mt : List String) : Option Metrics :=
  match Atoi (mt.getD 1 "").toList with
  | none => some m
  | some ld_num =>
    match ParseCapacity (mt.getD 2 "") with
    | none => none
    | some ld_cap =>
      let ld_raid :=
        match Atoi (mt.getD 3 "").toList with
        | some r => r
        | none => -1
      let ld_status := ParseStatus (mt.getD 4 "")
      let labels : Labels := (slot, ld_num)
      let m1 := { m with ldStatus := gaugeSet m.ldStatus labels (F64.ofInt ld_status) }
      let m2 := { m1 with ldCapacity := gaugeSet m1.ldCapacity labels (F64.ofInt ld_cap) }
      some { m2 with ldRaid := gaugeSet m2.ldRaid labels (F64.ofInt ld_raid) }

/-- Method `CollectLogicalDrives` of main.go; `none` is a panic. -/
def CollectLogicalDrives (env : Env) (slot : Int) (m : Metrics) : Option Metrics :=
  match env.ldAllShow slot with
  | none => some m
  | some out => (FindAllSubmatch logicalDriveRegex out).foldlM (driveStep slot) m

/-- Method `Collect` of main.go: one poll cycle; `none` is a panic. -/
def Collect (env : Env) (m : Metrics) : Option Metrics :=
  let r := CollectControllerCount env m
  r.1.foldlM (fun st idx => CollectLogicalDrives env idx st) r.2

/-! ## Specification-level notions -/

/-- Declarative meaning of the patterns: `re.Matches w g h` says that the text
`w` is matched by `re`, the list of captures growing from `g` to `h`. -/
def Re.Matches : Re → List Char → List (List Char) → List (List Char) → Prop
  | .eps, w, g, h => w = [] ∧ h = g
  | .one c, w, g, h => (∃ x, w = [x] ∧ c.test x = true) ∧ h = g
  | .star c, w, g, h => (∀ x ∈ w, c.test x = true) ∧ h = g
  | .seq a b, w, g, h => ∃ w1 w2 g1, w = w1 ++ w2 ∧ a.Matches w1 g g1 ∧ b.Matches w2 g1 h
  | .cap a, w, g, h => ∃ g1, a.Matches w g g1 ∧ h = g1 ++ [w]

/-- A logical drive record as the text parser of the specification returns it:
the drive number and the three raw fields. -/
structure LogicalDriveRecord where
  number : Int
  capacityRaw : String
  raidLevelRaw : String
  statusRaw : String
  deriving DecidableEq, Repr

/-- Specification `parseControllerSlots`: the numbers of the occurrences of
`Slot <digits>` that parse as an `int`, in textual order. -/
def parseControllerSlots (text : String) : List Int :=
  (FindAllSubmatch controllerSlotRegex text).filterMap (fun mt => Atoi (mt.getD 1 "").toList)

/-- Specification `parseLogicalDrives`: one record for each occurrence of the
logical-drive pattern whose number parses as an `int`, in textual order. -/
def parseLogicalDrives (text : String) : List LogicalDriveRecord :=
  (FindAllSubmatch logicalDriveRegex text).filterMap
    (fun mt => (Atoi (mt.getD 1 "").toList).map
      (fun n => ⟨n, mt.getD 2 "", mt.getD 3 "", mt.getD 4 ""⟩))

/-- Normalised sample of one logical drive of one controller. -/
structure DriveSample where
  slot : Int
  number : Int
  statusCode : Int
  capacityMB : Int
  raidLevel : Int
  deriving DecidableEq, Repr

/-- Specification RAID level: the integer value of the label, `-1` when the
label is not an `int`. -/
def raidLevel (label : String) : Int :=
  (Atoi label.toList).getD (-1)

/-- Specification normaliser of a record of controller `slot`; `none` when
`ParseCapacity` panics. -/
def normalize (slot : Int) (r : LogicalDriveRecord) : Option DriveSample :=
  (ParseCapacity r.capacityRaw).map
    (fun c => ⟨slot, r.number, ParseStatus r.statusRaw, c, raidLevel r.raidLevelRaw⟩)

/-- Specification `setDriveMetrics`: write the triple of a sample under its key. -/
def setDriveMetrics (m : Metrics) (w : DriveSample) : Metrics :=
  { numControllers := m.numControllers
    ldStatus := gaugeSet m.ldStatus (w.slot, w.number) (F64.ofInt w.statusCode)
    ldCapacity := gaugeSet m.ldCapacity (w.slot, w.number) (F64.ofInt w.capacityMB)
    ldRaid := gaugeSet m.ldRaid (w.slot, w.number) (F64.ofInt w.raidLevel) }

/-- Normalise every record of a list; `none` when one of them makes
`ParseCapacity` panic. -/
def normalizeAll (slot : Int) : List LogicalDriveRecord → Option (List DriveSample)
  | [] => some []
  | r :: rs =>
    match normalize slot r, normalizeAll slot rs with
    | some w, some ws => some (w :: ws)
    | _, _ => none

/-- The samples of the output `out` of controller `slot`, in textual order. -/
def driveSamples (slot : Int) (out : String) : Option (List DriveSample) :=
  normalizeAll slot (parseLogicalDrives out)

/-- Function `NewMetrics` of main.go: a gauge at zero and three gauge vectors without children. -/
def NewMetrics : Metrics :=
  { numControllers := F64.fin false 0
    ldStatus := fun _ => none
    ldCapacity := fun _ => none
    ldRaid := fun _ => none }

/-- The last sample of `ws` written under the key `l`. -/
def lastWrite (ws : List DriveSample) (l : Labels) : Option DriveSample :=
  ws.reverse.find? (fun w => decide ((w.slot, w.number) = l))

/-- An output of `ssacli ctrl all show` with controllers in slots 0 and 3. -/
def exampleCtrlOutput : String :=
  "\nSmart Array P440ar in Slot 0 (Embedded)    (sn: PDNLH0BRH7V7GC)\n\nSmart HBA H240 in Slot 3                  (sn: PDNNK0ARH7V0X2)\n\n"

/-- An output of `ssacli ctrl slot=0 ld all show` with two logical drives. -/
def exampleLdOutput : String :=
  "\nSmart Array P440ar in Slot 0 (Embedded)\n\n   Array A\n\n      logicaldrive 1 (279.4 GB, RAID 1, OK)\n\n   Array B\n\n      logicaldrive 2 (1.5 TB, RAID 0, Failed)\n\n"

/-- A host where the listing and slot 0 succeed and the command fails for slot 3. -/
def exampleEnv : Env :=
  { ctrlAllShow := some exampleCtrlOutput
    ldAllShow := fun slot => if slot = 0 then some exampleLdOutput else none }

/-- The samples one call of `CollectLogicalDrives` writes for `slot`: none when
the command fails. -/
def slotWrites (env : Env) (slot : Int) : List DriveSample :=
  match env.ldAllShow slot with
  | none => []
  | some out => (driveSamples slot out).getD []

/-- The samples a poll cycle writes for a list of slots, in order. -/
def cycleWrites (env : Env) : List Int → List DriveSample
  | [] => []
  | slot :: slots => slotWrites env slot ++ cycleWrites env slots

/-- A run of decimal digits, and whether it is not empty. -/
def isDigitRun : List Char → Bool
  | [] => false
  | cs => cs.all Char.isDigit

/-- The usual syntax of a decimal number: an optional sign, digits with at most
one point (at least one digit), and an optional exponent `e` or `E` with an
optional sign and digits. -/
def isDecimalNumber (s : List Char) : Bool :=
  let body : List Char :=
    match s with
    | c :: cs => if c = '+' ∨ c = '-' then cs else s
    | [] => s
  let mant : List Char := body.takeWhile (fun c => c.isDigit || c = '.')
  let rest : List Char := body.dropWhile (fun c => c.isDigit || c = '.')
  let mantOk := mant.any Char.isDigit && decide (mant.count '.' ≤ 1)
  let expOk :=
    match rest with
    | [] => true
    | e :: es =>
      (e = 'e' || e = 'E') &&
        (match es with
         | c :: cs => if c = '+' ∨ c = '-' then isDigitRun cs else isDigitRun es
         | [] => false)
  mantOk && expOk

/-- The steps of a binary search: each step is half of the width `b` left to
search, down to width 1. -/
def halving : List Nat → Nat → Prop
  | [], b => b = 1
  | k :: ks, b => b = k + k ∧ halving ks k

/-- The natural number `n`, in units of `2^(-1074)`, has a significand of at
most 53 bits, as every binary64 value has. -/
def Representable (n : Nat) : Prop := ∃ r j : Nat, n = r * 2 ^ j ∧ r < 2 ^ 53

/-- The matches `ms` occur in the text `s` one after the other, without
overlap: `s` is a gap, the text of the first match, and a remainder in which
the other matches occur in the same way; each match lists its whole text and
then its capture groups. -/
inductive Occurs (re : Re) : List Char → List (List String) → Prop where
  | done (s : List Char) : Occurs re s []
  | next (gap w rest : List Char) (g : List (List Char)) (ms : List (List String)) :
      re.Matches w [] g → Occurs re rest ms →
      Occurs re (gap ++ w ++ rest) ((w :: g).map String.mk :: ms)

/-! ## Theorems -/

/-! ### The matcher is sound for the declarative meaning of patterns -/

theorem starRun_sound {α : Type} (c : CharClass) (k : List Char → Option α) (s : List Char)
    (r : α) (h : starRun c k s = some r) :
    ∃ w t, s = w ++ t ∧ (∀ x ∈ w, c.test x = true) ∧ k t = some r := by
  induction s with
  | nil => exact ⟨[], [], rfl, by simp, by simpa [starRun] using h⟩
  | cons x xs ih =>
    unfold starRun at h
    by_cases hx : c.test x = true
    · rw [if_pos hx] at h
      cases hrec : starRun c k xs with
      | none =>
        rw [hrec] at h
        exact ⟨[], x :: xs, rfl, by simp, h⟩
      | some v =>
        rw [hrec] at h
        have hv : v = r := by simpa using h
        subst hv
        obtain ⟨w, t, hs, hw, hk⟩ := ih hrec
        refine ⟨x :: w, t, by simp [hs], ?_, hk⟩
        intro y hy
        rcases List.mem_cons.mp hy with rfl | hy
        · exact hx
        · exact hw y hy
    · rw [if_neg hx] at h
      exact ⟨[], x :: xs, rfl, by simp, h⟩

theorem Re.run_sound {α : Type} (re : Re) : ∀ (s : List Char) (g : List (List Char))
    (k : List Char → List (List Char) → Option α) (r : α), re.run s g k = some r →
    ∃ w t h, s = w ++ t ∧ re.Matches w g h ∧ k t h = some r := by
  induction re with
  | eps => intro s g k r h; exact ⟨[], s, g, rfl, ⟨rfl, rfl⟩, h⟩
  | one c =>
    intro s g k r h
    cases s with
    | nil => simp [Re.run] at h
    | cons x xs =>
      simp only [Re.run] at h
      by_cases hx : c.test x = true
      · rw [if_pos hx] at h
        exact ⟨[x], xs, g, rfl, ⟨⟨x, rfl, hx⟩, rfl⟩, h⟩
      · rw [if_neg hx] at h; cases h
  | star c =>
    intro s g k r h
    obtain ⟨w, t, hs, hw, hk⟩ := starRun_sound c _ s r h
    exact ⟨w, t, g, hs, ⟨hw, rfl⟩, hk⟩
  | seq a b iha ihb =>
    intro s g k r h
    obtain ⟨w1, t1, g1, hs1, hm1, hk1⟩ := iha s g _ r h
    obtain ⟨w2, t2, g2, hs2, hm2, hk2⟩ := ihb t1 g1 k r hk1
    exact ⟨w1 ++ w2, t2, g2, by simp [hs1, hs2], ⟨w1, w2, g1, rfl, hm1, hm2⟩, hk2⟩
  | cap a iha =>
    intro s g k r h
    obtain ⟨w, t, g1, hs, hm, hk⟩ := iha s g _ r h
    refine ⟨w, t, g1 ++ [w], hs, ⟨g1, hm, rfl⟩, ?_⟩
    have : List.take (s.length - t.length) s = w := by
      subst hs; simp
    simpa [this] using hk

theorem Re.exec_sound (re : Re) (s : List Char) (g : List (List Char)) (t : List Char)
    (h : re.exec s = some (g, t)) : ∃ w, s = w ++ t ∧ re.Matches w [] g := by
  obtain ⟨w, t', g', hs, hm, hk⟩ := Re.run_sound re s [] _ _ h
  simp only [Option.some.injEq, Prod.mk.injEq] at hk
  obtain ⟨rfl, rfl⟩ := hk
  exact ⟨w, hs, hm⟩

theorem findAll_sound (re : Re) : ∀ (s : List Char) (skip : Nat) (mt : List String),
    mt ∈ findAll re skip s → ∃ w g, re.Matches w [] g ∧ mt = (w :: g).map String.mk := by
  intro s
  induction s with
  | nil => intro skip mt h; cases skip <;> simp [findAll] at h
  | cons x xs ih =>
    intro skip mt h
    cases skip with
    | succ n => exact ih n mt (by simpa [findAll] using h)
    | zero =>
      unfold findAll at h
      cases he : re.exec (x :: xs) with
      | none => rw [he] at h; exact ih 0 mt h
      | some p =>
        obtain ⟨g, rest⟩ := p
        rw [he] at h
        obtain ⟨w, hs, hm⟩ := Re.exec_sound re _ g rest he
        rcases List.mem_cons.mp h with h1 | h2
        · refine ⟨w, g, hm, ?_⟩
          rw [h1, hs]; simp
        · exact ih _ mt h2

/-! ### strings.Cut -/

theorem Cut_found (s : List Char) (sep : Char) (h : (Cut s sep).2.2 = true) :
    s = (Cut s sep).1 ++ sep :: (Cut s sep).2.1 ∧ sep ∉ (Cut s sep).1 := by
  induction s with
  | nil => simp [Cut] at h
  | cons c cs ih =>
    unfold Cut at h ⊢
    by_cases hc : c = sep
    · simp [hc]
    · simp only [if_neg hc] at h ⊢
      obtain ⟨h1, h2⟩ := ih h
      refine ⟨by simpa using h1, ?_⟩
      simp only [List.mem_cons, not_or]
      exact ⟨fun e => hc e.symm, h2⟩

theorem Cut_not_found (s : List Char) (sep : Char) :
    (Cut s sep).2.2 = false ↔ sep ∉ s := by
  induction s with
  | nil => simp [Cut]
  | cons c cs ih =>
    unfold Cut
    by_cases hc : c = sep
    · simp [hc]
    · simp only [if_neg hc, List.mem_cons, not_or]
      rw [ih]
      exact ⟨fun h => ⟨fun e => hc e.symm, h⟩, fun h => h.2⟩

theorem Cut_append (mag rest : List Char) (sep : Char) (h : sep ∉ mag) :
    Cut (mag ++ sep :: rest) sep = (mag, rest, true) := by
  induction mag with
  | nil => simp [Cut]
  | cons c cs ih =>
    simp only [List.mem_cons, not_or] at h
    have hc : ¬ c = sep := fun e => h.1 e.symm
    simp [Cut, hc, ih h.2]

theorem Cut_suffix_ne_nil (s : List Char) (sep b : Char) (hb : b ≠ sep)
    (hlast : s.getLast? = some b) (h : (Cut s sep).2.2 = true) : (Cut s sep).2.1 ≠ [] := by
  intro hnil
  have hs := (Cut_found s sep h).1
  rw [hnil] at hs
  rw [hs] at hlast
  simp at hlast
  exact hb hlast.symm

/-! ### ParseCapacity does not panic on text ending in B -/

theorem ParseCapacity_ne_none (s : String) (hlast : s.toList.getLast? = some 'B') :
    ParseCapacity s ≠ none := by
  dsimp only [ParseCapacity]
  cases hpf : ParseFloat (Cut s.toList ' ').1 with
  | none => intro h; cases h
  | some num =>
    dsimp only
    by_cases hf : (Cut s.toList ' ').2.2 = true
    · have hsuf := Cut_suffix_ne_nil s.toList ' ' 'B' (by decide) hlast hf
      cases hc : (Cut s.toList ' ').2.1 with
      | nil => exact absurd hc hsuf
      | cons u us =>
        simp only [hf, not_true_eq_false, if_false]
        split_ifs <;> exact Option.some_ne_none _
    · rw [if_pos hf]
      exact Option.some_ne_none _

/-! ### Shape of the matches of the two patterns -/

theorem Matches_lits (l : List Char) (w : List Char) (g h : List (List Char)) :
    (l.foldr (fun c r => Re.seq (Re.one (CharClass.chr c)) r) Re.eps).Matches w g h ↔
      w = l ∧ h = g := by
  induction l generalizing w with
  | nil => simp [Re.Matches]
  | cons c cs ih =>
    simp only [List.foldr, Re.Matches, CharClass.test, decide_eq_true_eq]
    constructor
    · rintro ⟨w1, w2, g1, rfl, ⟨⟨x, rfl, rfl⟩, rfl⟩, h2⟩
      obtain ⟨rfl, rfl⟩ := (ih _).mp h2
      exact ⟨rfl, rfl⟩
    · rintro ⟨rfl, rfl⟩
      exact ⟨[c], cs, h, rfl, ⟨⟨c, rfl, rfl⟩, rfl⟩, (ih _).mpr ⟨rfl, rfl⟩⟩

theorem Matches_str (s : String) (w : List Char) (g h : List (List Char)) :
    (Re.str s).Matches w g h ↔ w = s.toList ∧ h = g :=
  Matches_lits s.toList w g h

theorem Matches_plus_digit (w : List Char) (g h : List (List Char))
    (hm : (Re.plus CharClass.digit).Matches w g h) :
    w ≠ [] ∧ (∀ x ∈ w, x.isDigit = true) ∧ h = g := by
  simp only [Re.plus, Re.Matches, CharClass.test] at hm
  obtain ⟨w1, w2, g1, rfl, ⟨⟨x, rfl, hx⟩, rfl⟩, hall, rfl⟩ := hm
  refine ⟨by simp, ?_, rfl⟩
  intro y hy
  rcases List.mem_cons.mp hy with rfl | hy
  · exact hx
  · exact hall y hy

theorem logicalDrive_Matches (w : List Char) (g : List (List Char))
    (hm : logicalDriveRegex.Matches w [] g) :
    ∃ d c r st : List Char, g = [d, c ++ ['B'], r, st] ∧ d ≠ [] ∧
      (∀ x ∈ d, x.isDigit = true) := by
  simp only [logicalDriveRegex, Re.cat, List.foldr] at hm
  obtain ⟨w1, v1, g1, -, h1, hm⟩ := hm
  obtain ⟨-, rfl⟩ := (Matches_str _ _ _ _).mp h1
  obtain ⟨w2, v2, g2, -, ⟨g2', h2, rfl⟩, hm⟩ := hm
  obtain ⟨hne, hdig, rfl⟩ := Matches_plus_digit _ _ _ h2
  obtain ⟨w3, v3, g3, -, h3, hm⟩ := hm
  obtain ⟨-, rfl⟩ := (Matches_str _ _ _ _).mp h3
  obtain ⟨w4, v4, g4, -, ⟨g4', h4, rfl⟩, hm⟩ := hm
  obtain ⟨c, b, g5, rfl, ⟨-, rfl⟩, ⟨⟨x, rfl, hx⟩, rfl⟩⟩ := h4
  simp only [CharClass.test, decide_eq_true_eq] at hx
  subst hx
  obtain ⟨w5, v5, g5, -, h5, hm⟩ := hm
  obtain ⟨-, rfl⟩ := (Matches_str _ _ _ _).mp h5
  obtain ⟨w6, v6, g6, -, ⟨g6', ⟨-, rfl⟩, rfl⟩, hm⟩ := hm
  obtain ⟨w7, v7, g7, -, h7, hm⟩ := hm
  obtain ⟨-, rfl⟩ := (Matches_str _ _ _ _).mp h7
  obtain ⟨w8, v8, g8, -, ⟨g8', ⟨-, rfl⟩, rfl⟩, hm⟩ := hm
  obtain ⟨w9, v9, g9, -, h9, hm⟩ := hm
  obtain ⟨-, rfl⟩ := (Matches_str _ _ _ _).mp h9
  obtain ⟨-, rfl⟩ := hm
  exact ⟨w2, c, w6, w8, rfl, hne, hdig⟩

theorem logicalDrive_shape (out : String) (mt : List String)
    (h : mt ∈ FindAllSubmatch logicalDriveRegex out) :
    ∃ whole d c r st : List Char, mt = [String.mk whole, String.mk d, String.mk (c ++ ['B']),
      String.mk r, String.mk st] ∧ d ≠ [] ∧ (∀ x ∈ d, x.isDigit = true) := by
  obtain ⟨w, g, hm, rfl⟩ := findAll_sound _ _ _ _ h
  obtain ⟨d, c, r, st, rfl, hne, hdig⟩ := logicalDrive_Matches w g hm
  exact ⟨w, d, c, r, st, rfl, hne, hdig⟩

theorem controllerSlot_shape (out : String) (mt : List String)
    (h : mt ∈ FindAllSubmatch controllerSlotRegex out) :
    ∃ d : List Char, mt = [String.mk ("Slot ".toList ++ d), String.mk d] ∧ d ≠ [] ∧
      (∀ x ∈ d, x.isDigit = true) := by
  obtain ⟨w, g, hm, rfl⟩ := findAll_sound _ _ _ _ h
  simp only [controllerSlotRegex, Re.cat, List.foldr] at hm
  obtain ⟨w1, v1, g1, rfl, h1, hm⟩ := hm
  obtain ⟨rfl, rfl⟩ := (Matches_str _ _ _ _).mp h1
  obtain ⟨w2, v2, g2, rfl, ⟨g2', h2, rfl⟩, ⟨rfl, rfl⟩⟩ := hm
  obtain ⟨hne, hdig, rfl⟩ := Matches_plus_digit _ _ _ h2
  exact ⟨w2, by simp, hne, hdig⟩

/-! ### The loops of the collector as folds over the parsed records -/

theorem foldl_slots (f : List String → Option Int) (ms : List (List String)) (init : List Int) :
    ms.foldl (fun slots mt => match f mt with
        | none => slots
        | some slot => slots ++ [slot]) init = init ++ ms.filterMap f := by
  induction ms generalizing init with
  | nil => simp
  | cons a rest ih =>
    simp only [List.foldl_cons, List.filterMap_cons]
    cases h : f a with
    | none => simp [ih]
    | some v => simp [ih]

theorem driveStep_refines (slot : Int) (m : Metrics) (mt : List String) :
    driveStep slot m mt =
      match Atoi (mt.getD 1 "").toList with
      | none => some m
      | some n => (normalize slot ⟨n, mt.getD 2 "", mt.getD 3 "", mt.getD 4 ""⟩).map
          (setDriveMetrics m) := by
  unfold driveStep
  cases h1 : Atoi (mt.getD 1 "").toList with
  | none => rfl
  | some n =>
    dsimp only [normalize]
    cases h2 : ParseCapacity (mt.getD 2 "") with
    | none => rfl
    | some c =>
      dsimp only [Option.map, setDriveMetrics, raidLevel]
      cases h3 : Atoi (mt.getD 3 "").toList <;> rfl

theorem foldlM_driveStep (slot : Int) (ms : List (List String)) :
    ∀ (ws : List DriveSample) (m : Metrics),
      normalizeAll slot (ms.filterMap (fun mt => (Atoi (mt.getD 1 "").toList).map
        (fun n => (⟨n, mt.getD 2 "", mt.getD 3 "", mt.getD 4 ""⟩ : LogicalDriveRecord))))
          = some ws →
      ms.foldlM (driveStep slot) m = some (ws.foldl setDriveMetrics m) := by
  induction ms with
  | nil => intro ws m h; simp [normalizeAll] at h; subst h; rfl
  | cons a rest ih =>
    intro ws m h
    rw [List.foldlM_cons, driveStep_refines]
    cases h1 : Atoi (a.getD 1 "").toList with
    | none =>
      rw [List.filterMap_cons, h1] at h
      exact ih ws m h
    | some n =>
      rw [List.filterMap_cons, h1] at h
      simp only [Option.map_some', normalizeAll] at h
      cases h2 : normalize slot ⟨n, a.getD 2 "", a.getD 3 "", a.getD 4 ""⟩ with
      | none => rw [h2] at h; cases h
      | some w =>
        rw [h2] at h
        cases h3 : normalizeAll slot (rest.filterMap (fun mt =>
            (Atoi (mt.getD 1 "").toList).map
              (fun n => (⟨n, mt.getD 2 "", mt.getD 3 "", mt.getD 4 ""⟩ : LogicalDriveRecord)))) with
        | none => rw [h3] at h; cases h
        | some ws' =>
          rw [h3] at h
          cases h
          simp only [h2, Option.map_some', Option.bind_eq_bind, Option.some_bind, List.foldl_cons]
          exact ih ws' (setDriveMetrics m w) h3

/-! ### Reading the gauges after a sequence of writes -/

theorem Metrics.ext_fields (a b : Metrics) (h0 : a.numControllers = b.numControllers)
    (h1 : a.ldStatus = b.ldStatus) (h2 : a.ldCapacity = b.ldCapacity)
    (h3 : a.ldRaid = b.ldRaid) : a = b := by
  cases a; cases b; simp_all

theorem foldl_set_numControllers (ws : List DriveSample) (m : Metrics) :
    (ws.foldl setDriveMetrics m).numControllers = m.numControllers := by
  induction ws generalizing m with
  | nil => rfl
  | cons w ws ih => rw [List.foldl_cons, ih]; rfl

theorem lastWrite_append_singleton (ws : List DriveSample) (w : DriveSample) (l : Labels) :
    lastWrite (ws ++ [w]) l = if (w.slot, w.number) = l then some w else lastWrite ws l := by
  unfold lastWrite
  rw [List.reverse_append, List.reverse_singleton, List.singleton_append, List.find?_cons]
  by_cases h : (w.slot, w.number) = l
  · simp [h]
  · simp [h]

theorem foldl_set_ldStatus (ws : List DriveSample) (m : Metrics) (l : Labels) :
    (ws.foldl setDriveMetrics m).ldStatus l =
      match lastWrite ws l with
      | some w => some (F64.ofInt w.statusCode)
      | none => m.ldStatus l := by
  induction ws using List.reverseRecOn with
  | nil => rfl
  | append_singleton ws w ih =>
    rw [List.foldl_append, lastWrite_append_singleton]
    simp only [List.foldl_cons, List.foldl_nil, setDriveMetrics, gaugeSet]
    by_cases h : (w.slot, w.number) = l
    · simp [h]
    · have h' : ¬ l = (w.slot, w.number) := fun e => h e.symm
      simp only [h, h', if_false]
      exact ih

theorem foldl_set_ldCapacity (ws : List DriveSample) (m : Metrics) (l : Labels) :
    (ws.foldl setDriveMetrics m).ldCapacity l =
      match lastWrite ws l with
      | some w => some (F64.ofInt w.capacityMB)
      | none => m.ldCapacity l := by
  induction ws using List.reverseRecOn with
  | nil => rfl
  | append_singleton ws w ih =>
    rw [List.foldl_append, lastWrite_append_singleton]
    simp only [List.foldl_cons, List.foldl_nil, setDriveMetrics, gaugeSet]
    by_cases h : (w.slot, w.number) = l
    · simp [h]
    · have h' : ¬ l = (w.slot, w.number) := fun e => h e.symm
      simp only [h, h', if_false]
      exact ih

theorem foldl_set_ldRaid (ws : List DriveSample) (m : Metrics) (l : Labels) :
    (ws.foldl setDriveMetrics m).ldRaid l =
      match lastWrite ws l with
      | some w => some (F64.ofInt w.raidLevel)
      | none => m.ldRaid l := by
  induction ws using List.reverseRecOn with
  | nil => rfl
  | append_singleton ws w ih =>
    rw [List.foldl_append, lastWrite_append_singleton]
    simp only [List.foldl_cons, List.foldl_nil, setDriveMetrics, gaugeSet]
    by_cases h : (w.slot, w.number) = l
    · simp [h]
    · have h' : ¬ l = (w.slot, w.number) := fun e => h e.symm
      simp only [h, h', if_false]
      exact ih

theorem lastWrite_mem (ws : List DriveSample) (l : Labels) (w : DriveSample)
    (h : lastWrite ws l = some w) : w ∈ ws ∧ (w.slot, w.number) = l := by
  unfold lastWrite at h
  have h1 := List.mem_of_find?_eq_some h
  have h2 := List.find?_some h
  exact ⟨List.mem_reverse.mp h1, by simpa using h2⟩

theorem lastWrite_isSome (ws : List DriveSample) (w : DriveSample) (hw : w ∈ ws) :
    ∃ v, lastWrite ws (w.slot, w.number) = some v := by
  unfold lastWrite
  cases h : ws.reverse.find? (fun v => decide ((v.slot, v.number) = (w.slot, w.number))) with
  | some v => exact ⟨v, rfl⟩
  | none =>
    rw [List.find?_eq_none] at h
    have := h w (List.mem_reverse.mpr hw)
    simp at this

/-- Writing the same samples a second time changes nothing. -/
theorem foldl_set_idem (ws : List DriveSample) (m : Metrics) :
    ws.foldl setDriveMetrics (ws.foldl setDriveMetrics m) = ws.foldl setDriveMetrics m := by
  apply Metrics.ext_fields
  · rw [foldl_set_numControllers]
  · funext l
    rw [foldl_set_ldStatus ws (ws.foldl setDriveMetrics m)]
    cases h : lastWrite ws l with
    | none => rfl
    | some w => rw [foldl_set_ldStatus ws m, h]
  · funext l
    rw [foldl_set_ldCapacity ws (ws.foldl setDriveMetrics m)]
    cases h : lastWrite ws l with
    | none => rfl
    | some w => rw [foldl_set_ldCapacity ws m, h]
  · funext l
    rw [foldl_set_ldRaid ws (ws.foldl setDriveMetrics m)]
    cases h : lastWrite ws l with
    | none => rfl
    | some w => rw [foldl_set_ldRaid ws m, h]

/-! ### The writes of one call and of one poll cycle -/

theorem normalizeAll_forall₂ (slot : Int) (rs : List LogicalDriveRecord)
    (ws : List DriveSample) :
    normalizeAll slot rs = some ws ↔
      List.Forall₂ (fun r w => normalize slot r = some w) rs ws := by
  induction rs generalizing ws with
  | nil =>
    simp only [normalizeAll, Option.some.injEq, List.forall₂_nil_left_iff]
    exact eq_comm
  | cons r rs ih =>
    simp only [normalizeAll]
    constructor
    · intro h
      cases h1 : normalize slot r with
      | none => rw [h1] at h; cases h
      | some w =>
        cases h2 : normalizeAll slot rs with
        | none => rw [h1, h2] at h; cases h
        | some ws' =>
          rw [h1, h2] at h
          cases h
          exact List.Forall₂.cons h1 ((ih ws').mp h2)
    · intro h
      cases h with
      | cons h1 h2 =>
        rw [h1, (ih _).mpr h2]

theorem normalizeAll_total (slot : Int) (rs : List LogicalDriveRecord)
    (h : ∀ r ∈ rs, ParseCapacity r.capacityRaw ≠ none) :
    ∃ ws, normalizeAll slot rs = some ws := by
  induction rs with
  | nil => exact ⟨[], rfl⟩
  | cons r rs ih =>
    obtain ⟨ws, hws⟩ := ih (fun r' hr' => h r' (List.mem_cons_of_mem _ hr'))
    have hr := h r (List.mem_cons_self _ _)
    cases hc : ParseCapacity r.capacityRaw with
    | none => exact absurd hc hr
    | some c =>
      refine ⟨⟨slot, r.number, ParseStatus r.statusRaw, c, raidLevel r.raidLevelRaw⟩ :: ws, ?_⟩
      simp only [normalizeAll, normalize, hc, Option.map_some', hws]

theorem parseLogicalDrives_capacity (out : String) (r : LogicalDriveRecord)
    (h : r ∈ parseLogicalDrives out) : r.capacityRaw.toList.getLast? = some 'B' := by
  unfold parseLogicalDrives at h
  obtain ⟨mt, hmt, hr⟩ := List.mem_filterMap.mp h
  obtain ⟨whole, d, c, rd, st, rfl, -, -⟩ := logicalDrive_shape out mt hmt
  cases ha : Atoi (([String.mk whole, String.mk d, String.mk (c ++ ['B']), String.mk rd,
      String.mk st] : List String).getD 1 "").toList with
  | none => rw [ha] at hr; cases hr
  | some n =>
    rw [ha] at hr
    simp only [Option.map_some', Option.some.injEq] at hr
    subst hr
    simp

theorem driveSamples_total (slot : Int) (out : String) :
    ∃ ws, driveSamples slot out = some ws :=
  normalizeAll_total slot _ (fun r hr =>
    ParseCapacity_ne_none _ (parseLogicalDrives_capacity out r hr))

theorem normalizeAll_mem (slot : Int) (rs : List LogicalDriveRecord) (ws : List DriveSample)
    (h : normalizeAll slot rs = some ws) (w : DriveSample) (hw : w ∈ ws) :
    ∃ r ∈ rs, normalize slot r = some w := by
  have hf := (normalizeAll_forall₂ slot rs ws).mp h
  clear h
  induction hf with
  | nil => cases hw
  | cons h1 _ ih =>
    rcases List.mem_cons.mp hw with rfl | hw
    · exact ⟨_, List.mem_cons_self _ _, h1⟩
    · obtain ⟨r, hr, hn⟩ := ih hw
      exact ⟨r, List.mem_cons_of_mem _ hr, hn⟩

theorem normalizeAll_mem_left (slot : Int) (rs : List LogicalDriveRecord)
    (ws : List DriveSample) (h : normalizeAll slot rs = some ws) (r : LogicalDriveRecord)
    (hr : r ∈ rs) : ∃ w ∈ ws, normalize slot r = some w := by
  have hf := (normalizeAll_forall₂ slot rs ws).mp h
  clear h
  induction hf with
  | nil => cases hr
  | cons h1 _ ih =>
    rcases List.mem_cons.mp hr with rfl | hr
    · exact ⟨_, List.mem_cons_self _ _, h1⟩
    · obtain ⟨w, hw, hn⟩ := ih hr
      exact ⟨w, List.mem_cons_of_mem _ hw, hn⟩

theorem driveSamples_slot (slot : Int) (out : String) (ws : List DriveSample)
    (h : driveSamples slot out = some ws) : ∀ w ∈ ws, w.slot = slot := by
  intro w hw
  obtain ⟨r, -, hr⟩ := normalizeAll_mem slot _ ws h w hw
  unfold normalize at hr
  cases hc : ParseCapacity r.capacityRaw with
  | none => rw [hc] at hr; cases hr
  | some c => rw [hc] at hr; cases hr; rfl

theorem CollectLogicalDrives_failed (env : Env) (slot : Int) (m : Metrics)
    (h : env.ldAllShow slot = none) : CollectLogicalDrives env slot m = some m := by
  unfold CollectLogicalDrives; rw [h]

theorem CollectLogicalDrives_eq (env : Env) (slot : Int) (m : Metrics) :
    CollectLogicalDrives env slot m = some ((slotWrites env slot).foldl setDriveMetrics m) := by
  unfold CollectLogicalDrives slotWrites
  cases h : env.ldAllShow slot with
  | none => rfl
  | some out =>
    obtain ⟨ws, hws⟩ := driveSamples_total slot out
    simp only [hws, Option.getD_some]
    exact foldlM_driveStep slot _ ws m hws

theorem slotWrites_slot (env : Env) (slot : Int) : ∀ w ∈ slotWrites env slot,
    w.slot = slot ∧ env.ldAllShow slot ≠ none := by
  intro w hw
  unfold slotWrites at hw
  cases h : env.ldAllShow slot with
  | none => rw [h] at hw; cases hw
  | some out =>
    rw [h] at hw
    obtain ⟨ws, hws⟩ := driveSamples_total slot out
    simp only [hws, Option.getD_some] at hw
    exact ⟨driveSamples_slot slot out ws hws w hw, by simp⟩

theorem foldlM_CollectLogicalDrives (env : Env) (slots : List Int) (m : Metrics) :
    slots.foldlM (fun st idx => CollectLogicalDrives env idx st) m =
      some ((cycleWrites env slots).foldl setDriveMetrics m) := by
  induction slots generalizing m with
  | nil => rfl
  | cons i is ih =>
    rw [List.foldlM_cons, CollectLogicalDrives_eq]
    simp only [Option.bind_eq_bind, Option.some_bind, cycleWrites, List.foldl_append]
    exact ih _

theorem cycleWrites_slot (env : Env) (slots : List Int) : ∀ w ∈ cycleWrites env slots,
    w.slot ∈ slots ∧ env.ldAllShow w.slot ≠ none := by
  induction slots with
  | nil => intro w hw; cases hw
  | cons i is ih =>
    intro w hw
    simp only [cycleWrites, List.mem_append] at hw
    rcases hw with hw | hw
    · obtain ⟨h1, h2⟩ := slotWrites_slot env i w hw
      subst h1
      exact ⟨List.mem_cons_self _ _, h2⟩
    · exact ⟨List.mem_cons_of_mem _ (ih w hw).1, (ih w hw).2⟩

theorem CollectControllerCount_fst (env : Env) (m : Metrics) :
    (CollectControllerCount env m).1 =
      match env.ctrlAllShow with
      | none => []
      | some out => parseControllerSlots out := by
  unfold CollectControllerCount parseControllerSlots
  cases env.ctrlAllShow with
  | none => rfl
  | some out =>
    dsimp only
    rw [foldl_slots (fun mt => Atoi (mt.getD 1 "").toList)]
    rfl

theorem Collect_eq (env : Env) (m : Metrics) :
    Collect env m = some ((cycleWrites env (CollectControllerCount env m).1).foldl
      setDriveMetrics (CollectControllerCount env m).2) := by
  unfold Collect
  exact foldlM_CollectLogicalDrives env _ _

/-! ### Which keys a poll cycle writes -/

theorem lastWrite_append (a b : List DriveSample) (l : Labels) :
    lastWrite (a ++ b) l =
      match lastWrite b l with
      | some w => some w
      | none => lastWrite a l := by
  unfold lastWrite
  rw [List.reverse_append, List.find?_append]
  cases List.find? (fun w => decide ((w.slot, w.number) = l)) b.reverse <;> rfl

theorem lastWrite_none_of_slot (ws : List DriveSample) (l : Labels)
    (h : ∀ w ∈ ws, w.slot ≠ l.1) : lastWrite ws l = none := by
  unfold lastWrite
  rw [List.find?_eq_none]
  intro w hw
  have := h w (List.mem_reverse.mp hw)
  simp only [decide_eq_true_eq]
  intro e
  exact this (by rw [← e])

theorem lastWrite_cycle (env : Env) (slots : List Int) (g : Int) (hg : g ∈ slots) (n : Int) :
    lastWrite (cycleWrites env slots) (g, n) = lastWrite (slotWrites env g) (g, n) := by
  induction slots with
  | nil => cases hg
  | cons i is ih =>
    simp only [cycleWrites]
    rw [lastWrite_append]
    by_cases hmem : g ∈ is
    · rw [ih hmem]
      cases hx : lastWrite (slotWrites env g) (g, n) with
      | some v => rfl
      | none =>
        by_cases hi : i = g
        · subst hi; exact hx
        · exact lastWrite_none_of_slot _ _ (fun w hw => by
            rw [(slotWrites_slot env i w hw).1]; exact hi)
    · have hi : g = i := by
        rcases List.mem_cons.mp hg with h | h
        · exact h
        · exact absurd h hmem
      subst hi
      rw [lastWrite_none_of_slot (cycleWrites env is) (g, n) (fun w hw => by
        intro e
        have e' : w.slot = g := e
        exact hmem (e' ▸ (cycleWrites_slot env is w hw).1))]

theorem cycleWrites_filter (env : Env) (slots : List Int) (f : Int)
    (hf : env.ldAllShow f = none) :
    cycleWrites env (slots.filter (fun i => decide (i ≠ f))) = cycleWrites env slots := by
  induction slots with
  | nil => rfl
  | cons i is ih =>
    by_cases hi : i = f
    · subst hi
      have hnil : slotWrites env i = [] := by unfold slotWrites; rw [hf]
      rw [List.filter_cons_of_neg (by simp), ih]
      simp only [cycleWrites, hnil, List.nil_append]
    · rw [List.filter_cons_of_pos (by simpa using hi)]
      simp only [cycleWrites, ih]

theorem CollectControllerCount_gauges (env : Env) (m : Metrics) :
    (CollectControllerCount env m).2.ldStatus = m.ldStatus ∧
    (CollectControllerCount env m).2.ldCapacity = m.ldCapacity ∧
    (CollectControllerCount env m).2.ldRaid = m.ldRaid := by
  unfold CollectControllerCount
  cases env.ctrlAllShow <;> exact ⟨rfl, rfl, rfl⟩

theorem CollectControllerCount_count (env : Env) (m : Metrics) :
    (CollectControllerCount env m).2.numControllers =
      match env.ctrlAllShow with
      | none => m.numControllers
      | some out => F64.ofInt (FindAllSubmatch controllerSlotRegex out).length := by
  unfold CollectControllerCount
  cases env.ctrlAllShow <;> rfl

theorem filterMap_length_lt {α β : Type} (f : α → Option β) (l : List α)
    (h : ∃ a ∈ l, f a = none) : (l.filterMap f).length < l.length := by
  induction l with
  | nil => obtain ⟨a, ha, -⟩ := h; cases ha
  | cons x xs ih =>
    obtain ⟨a, ha, hfa⟩ := h
    have hle := List.length_filterMap_le f xs
    rw [List.filterMap_cons]
    rcases List.mem_cons.mp ha with rfl | ha
    · rw [hfa]; simp only [List.length_cons]; omega
    · have := ih ⟨a, ha, hfa⟩
      cases f x <;> simp only [List.length_cons] <;> omega

/-! ### Rounding to binary64 -/

theorem shiftStep (q sh k : Nat) (h1 : sh = 0 ∨ 2 ^ (52 + sh) ≤ q) :
    ((if 2 ^ (52 + sh + k) ≤ q then sh + k else sh) = 0 ∨
        2 ^ (52 + (if 2 ^ (52 + sh + k) ≤ q then sh + k else sh)) ≤ q) ∧
      (q < 2 ^ (52 + sh + (k + k)) →
        q < 2 ^ (52 + (if 2 ^ (52 + sh + k) ≤ q then sh + k else sh) + k)) ∧
      (if 2 ^ (52 + sh + k) ≤ q then sh + k else sh) ≤ sh + k := by
  by_cases h : 2 ^ (52 + sh + k) ≤ q
  · simp only [if_pos h]
    refine ⟨Or.inr (by rw [← Nat.add_assoc]; exact h), fun h2 => ?_, Nat.le_refl _⟩
    have e : 52 + (sh + k) + k = 52 + sh + (k + k) := by omega
    rw [e]; exact h2
  · simp only [if_neg h]
    exact ⟨h1, fun _ => Nat.lt_of_not_le h, Nat.le_add_right _ _⟩

theorem shiftFold_spec (q : Nat) (ks : List Nat) : ∀ (b sh : Nat), halving ks b →
    (sh = 0 ∨ 2 ^ (52 + sh) ≤ q) →
    (ks.foldl (fun sh k => if 2 ^ (52 + sh + k) ≤ q then sh + k else sh) sh = 0 ∨
        2 ^ (52 + ks.foldl (fun sh k => if 2 ^ (52 + sh + k) ≤ q then sh + k else sh) sh) ≤ q) ∧
      (q < 2 ^ (52 + sh + b) →
        q < 2 ^ (52 + ks.foldl (fun sh k => if 2 ^ (52 + sh + k) ≤ q then sh + k else sh) sh + 1)) ∧
      ks.foldl (fun sh k => if 2 ^ (52 + sh + k) ≤ q then sh + k else sh) sh + 1 ≤ sh + b := by
  induction ks with
  | nil =>
    intro b sh hb h1
    simp only [halving] at hb
    subst hb
    exact ⟨h1, fun h => h, Nat.le_refl _⟩
  | cons k ks ih =>
    intro b sh hb h1
    obtain ⟨rfl, hk⟩ := hb
    obtain ⟨a1, b1, c1⟩ := shiftStep q sh k h1
    rw [List.foldl_cons]
    generalize (if 2 ^ (52 + sh + k) ≤ q then sh + k else sh) = sh' at a1 b1 c1 ⊢
    obtain ⟨a2, b2, c2⟩ := ih k sh' hk a1
    exact ⟨a2, fun h => b2 (b1 h), by omega⟩

theorem shiftOf_spec (q : Nat) :
    (shiftOf q = 0 ∨ 2 ^ (52 + shiftOf q) ≤ q) ∧
      (q < 2 ^ 4148 → q < 2 ^ (53 + shiftOf q)) ∧ shiftOf q ≤ 4095 := by
  have hh : halving [2048, 1024, 512, 256, 128, 64, 32, 16, 8, 4, 2, 1] 4096 := by
    simp only [halving, and_self]
  obtain ⟨a, b, c⟩ := shiftFold_spec q _ 4096 0 hh (Or.inl rfl)
  unfold shiftOf
  generalize List.foldl (fun sh k => if 2 ^ (52 + sh + k) ≤ q then sh + k else sh) 0
    [2048, 1024, 512, 256, 128, 64, 32, 16, 8, 4, 2, 1] = t at a b c ⊢
  refine ⟨a, fun h => ?_, by omega⟩
  have e : 53 + t = 52 + t + 1 := by omega
  rw [e]
  exact b h

theorem rne_ge (a b : Nat) : a / b ≤ rne a b := by
  unfold rne
  dsimp only
  split_ifs <;> omega

theorem rne_le (a b : Nat) : rne a b ≤ a / b + 1 := by
  unfold rne
  dsimp only
  split_ifs <;> omega

theorem rne_of_mod_eq_zero (a b : Nat) (hb : 0 < b) (h : a % b = 0) : rne a b = a / b := by
  unfold rne
  dsimp only
  rw [h]
  simp [hb]

theorem two_pow_dvd_of_representable (n sh : Nat) (hrep : Representable n)
    (h : sh = 0 ∨ 2 ^ (52 + sh) ≤ n) : 2 ^ sh ∣ n := by
  rcases h with rfl | h
  · simp
  · obtain ⟨r, j, rfl, hr⟩ := hrep
    have h1 : r * 2 ^ j < 2 ^ 53 * 2 ^ j :=
      Nat.mul_lt_mul_of_pos_right hr (Nat.pow_pos (by decide))
    rw [← Nat.pow_add] at h1
    have h2 : 2 ^ (52 + sh) < 2 ^ (53 + j) := Nat.lt_of_le_of_lt h h1
    have h3 : 52 + sh < 53 + j := (Nat.pow_lt_pow_iff_right (by decide)).mp h2
    exact Dvd.dvd.mul_left (Nat.pow_dvd_pow 2 (by omega)) r

theorem roundFix_exact (num den n : Nat) (hden : 0 < den) (heq : num * 2 ^ 1074 = n * den)
    (hrep : Representable n) : roundFix num den = n := by
  unfold roundFix
  dsimp only
  rw [heq, Nat.mul_div_cancel _ hden]
  obtain ⟨m, hm⟩ := two_pow_dvd_of_representable n (shiftOf n) hrep (shiftOf_spec n).1
  generalize shiftOf n = sh at hm
  have hpos : 0 < den * 2 ^ sh := Nat.mul_pos hden (Nat.pow_pos (by decide))
  have ha : n * den = m * (den * 2 ^ sh) := by rw [hm]; ring
  rw [ha, rne_of_mod_eq_zero _ _ hpos (Nat.mul_mod_left _ _), Nat.mul_div_cancel _ hpos, hm]
  ring

theorem roundFix_representable (num den : Nat)
    (hlt : roundFix num den < 2 ^ 2098) : Representable (roundFix num den) := by
  unfold roundFix at hlt ⊢
  dsimp only at hlt ⊢
  generalize num * 2 ^ 1074 = a at hlt ⊢
  obtain ⟨-, hs2, hs3⟩ := shiftOf_spec (a / den)
  generalize shiftOf (a / den) = sh at hlt hs2 hs3 ⊢
  have hge := rne_ge a (den * 2 ^ sh)
  have hle := rne_le a (den * 2 ^ sh)
  rw [← Nat.div_div_eq_div_mul] at hge hle
  generalize rne a (den * 2 ^ sh) = R at hlt hge hle ⊢
  generalize a / den = q at hs2 hge hle
  have hp : 0 < 2 ^ sh := Nat.pow_pos (by decide)
  have hq : q < 2 ^ 4148 := by
    by_contra hcon
    have h1 : 2 ^ 4148 ≤ q := Nat.le_of_not_lt hcon
    have h2 : 2 ^ sh ≤ 2 ^ 4095 := Nat.pow_le_pow_right (by decide) hs3
    have h3 : q < (q / 2 ^ sh + 1) * 2 ^ sh := by
      have := Nat.div_add_mod q (2 ^ sh)
      have := Nat.mod_lt q hp
      rw [Nat.add_mul, Nat.mul_comm]
      omega
    have h4 : (q / 2 ^ sh) * 2 ^ sh ≤ R * 2 ^ sh := Nat.mul_le_mul_right _ hge
    have h5 : (2 : Nat) ^ 2098 + 2 ^ 4095 ≤ 2 ^ 4148 := by decide
    rw [Nat.add_mul] at h3
    omega
  have hdiv : q / 2 ^ sh < 2 ^ 53 := by
    rw [Nat.div_lt_iff_lt_mul hp, ← Nat.pow_add]
    exact hs2 hq
  by_cases hR : R < 2 ^ 53
  · exact ⟨R, sh, rfl, hR⟩
  · have hR' : R = 2 ^ 53 := by omega
    refine ⟨2 ^ 52, sh + 1, ?_, by decide⟩
    rw [hR', Nat.pow_succ]
    ring

theorem Representable_mul_two_pow (n k : Nat) (h : Representable n) :
    Representable (n * 2 ^ k) := by
  obtain ⟨r, j, rfl, hr⟩ := h
  exact ⟨r, j + k, by rw [Nat.pow_add]; ring, hr⟩

/-! ### ParseFloat returns binary64 values -/

theorem specialInf_not_fin (neg : Bool) (k : Nat) (s : List Char) (f : F64) (j : Nat)
    (h : specialInf neg k s = some (f, j)) : f = F64.inf neg := by
  unfold specialInf at h
  dsimp only at h
  split_ifs at h
  all_goals (cases h; rfl)

theorem special_not_fin (s : List Char) (f : F64) (j : Nat) (h : special s = some (f, j)) :
    ∀ neg n, f ≠ F64.fin neg n := by
  intro neg n
  unfold special at h
  split at h
  · cases h
  · split_ifs at h
    · rw [specialInf_not_fin _ _ _ _ _ h]; intro e; cases e
    · rw [specialInf_not_fin _ _ _ _ _ h]; intro e; cases e
    · cases h; intro e; cases e

theorem assemble_fin (neg hex : Bool) (mant frac e : Nat) (eneg : Bool) (f : F64)
    (h : assemble neg hex mant frac e eneg = some f) :
    ∃ n, f = F64.fin neg n ∧ Representable n ∧ n < overflowBound := by
  unfold assemble finiteOrRange at h
  dsimp only at h
  generalize hr : roundFix _ _ = r at h
  by_cases hlt : r < overflowBound
  · rw [if_pos hlt] at h
    cases h
    refine ⟨r, rfl, ?_, hlt⟩
    rw [← hr] at hlt ⊢
    exact roundFix_representable _ _ hlt
  · rw [if_neg hlt] at h; cases h

theorem finish_fin (s : List Char) (neg hex : Bool) (d : Digits) (e : Nat) (eneg u : Bool)
    (rest : List Char) (f : F64) (h : finish s neg hex d e eneg u rest = some f) :
    ∃ n, f = F64.fin neg n ∧ Representable n ∧ n < overflowBound := by
  unfold finish at h
  split_ifs at h
  exact assemble_fin _ _ _ _ _ _ f h

theorem ParseFloat_fin (s : List Char) (neg : Bool) (n : Nat)
    (h : ParseFloat s = some (F64.fin neg n)) : Representable n ∧ n < overflowBound := by
  have fin_case : ∀ (s' : List Char) (b hex : Bool) (d : Digits) (e : Nat) (eneg u : Bool)
      (rest : List Char), finish s' b hex d e eneg u rest = some (F64.fin neg n) →
      Representable n ∧ n < overflowBound := by
    intro s' b hex d e eneg u rest hf
    obtain ⟨n', hn', hr, hl⟩ := finish_fin _ _ _ _ _ _ _ _ _ hf
    cases hn'
    exact ⟨hr, hl⟩
  unfold ParseFloat at h
  split at h
  · rename_i g j hsp
    split_ifs at h
    cases h
    exact absurd rfl (special_not_fin s _ j hsp neg n)
  · split at h
    · cases h
    · dsimp only at h
      repeat' (first | split_ifs at h | split at h)
      all_goals first | cases h | exact fin_case _ _ _ _ _ _ _ _ h

/-! ### Multiplying by 1024 and converting to int -/

theorem F64.mul_1024 (neg : Bool) (n : Nat) (hrep : Representable n)
    (hlt : n * 1024 < overflowBound) :
    (F64.fin neg n).mul (F64.ofNat 1024) = F64.fin neg (n * 1024) := by
  have hex : roundFix (n * (1024 * 2 ^ 1074)) (2 ^ 1074 * 2 ^ 1074) = n * 1024 :=
    roundFix_exact _ _ _ (Nat.mul_pos (Nat.pow_pos (by decide)) (Nat.pow_pos (by decide)))
      (by ring) (Representable_mul_two_pow n 10 hrep)
  unfold F64.mul F64.ofNat
  dsimp only
  rw [hex, if_pos hlt]
  simp

theorem F64.toInt_fin (neg : Bool) (n : Nat) (h : n / 2 ^ 1074 < 2 ^ 63) :
    (F64.fin neg n).toInt =
      if neg then -((n / 2 ^ 1074 : Nat) : Int) else ((n / 2 ^ 1074 : Nat) : Int) := by
  unfold F64.toInt
  dsimp only
  rw [if_pos h, if_pos (Nat.le_of_lt h)]

/-! ### The matches occur in textual order -/

theorem Occurs.cons (re : Re) (c : Char) (s : List Char) (ms : List (List String))
    (h : Occurs re s ms) : Occurs re (c :: s) ms := by
  cases h with
  | done => exact Occurs.done _
  | next gap w rest g ms hm hr =>
    have := Occurs.next (c :: gap) w rest g ms hm hr
    simpa using this

theorem findAll_occurs (re : Re) : ∀ (s : List Char) (skip : Nat),
    Occurs re (s.drop skip) (findAll re skip s) := by
  intro s
  induction s with
  | nil => intro skip; cases skip <;> exact Occurs.done _
  | cons x xs ih =>
    intro skip
    cases skip with
    | succ n => simpa [findAll] using ih n
    | zero =>
      unfold findAll
      cases he : re.exec (x :: xs) with
      | none => exact Occurs.cons re x xs _ (by simpa using ih 0)
      | some p =>
        obtain ⟨g, rest⟩ := p
        obtain ⟨w, hs, hm⟩ := Re.exec_sound re _ g rest he
        dsimp only
        have htake : List.take ((x :: xs).length - rest.length) (x :: xs) = w := by
          rw [hs]; simp
        rw [htake]
        have hrest : Occurs re rest (findAll re (xs.length - rest.length) xs) := by
          cases w with
          | nil =>
            simp only [List.nil_append] at hs
            subst hs
            have h0 : xs.length - (x :: xs).length = 0 := by simp
            rw [h0]
            exact Occurs.cons re x xs _ (by simpa using ih 0)
          | cons y ys =>
            simp only [List.cons_append, List.cons.injEq] at hs
            obtain ⟨-, rfl⟩ := hs
            have := ih ((ys ++ rest).length - rest.length)
            simpa using this
        have := Occurs.next [] w rest g _ hm hrest
        rw [List.drop_zero, hs]
        simpa using this

theorem FindAllSubmatch_occurs (re : Re) (out : String) :
    Occurs re out.toList (FindAllSubmatch re out) := by
  have := findAll_occurs re out.toList 0
  simpa [FindAllSubmatch] using this

/-! ### Text without a digit is not a number -/

theorem readDigits_sawdigits (t : List Char) : ∀ d : Digits,
    (∀ c ∈ t, c.isDigit = false) → d.sawdigits = false →
    (readDigits false t d).1.sawdigits = false := by
  induction t with
  | nil => intro d _ hd; exact hd
  | cons c cs ih =>
    intro d hc hd
    have hcs : ∀ x ∈ cs, x.isDigit = false := fun x hx => hc x (List.mem_cons_of_mem _ hx)
    have hcd : c.isDigit = false := hc c (List.mem_cons_self _ _)
    unfold readDigits
    by_cases h1 : c = '_'
    · rw [if_pos h1]; exact ih _ hcs hd
    · rw [if_neg h1]
      by_cases h2 : c = '.'
      · rw [if_pos h2]
        by_cases h3 : d.sawdot = true
        · rw [if_pos h3]; exact hd
        · rw [if_neg h3]; exact ih _ hcs hd
      · rw [if_neg h2, if_neg (by rw [hcd]; exact Bool.false_ne_true),
          if_neg (by rintro ⟨h, -⟩; exact Bool.false_ne_true h)]
        exact hd

theorem ParseFloat_none_of_no_digit (s : List Char) (hsp : special s = none)
    (hd : ∀ c ∈ s, c.isDigit = false) : ParseFloat s = none := by
  unfold ParseFloat
  rw [hsp]
  cases s with
  | nil => rfl
  | cons c cs =>
    dsimp only
    have ht : ∀ x ∈ (if c = '+' ∨ c = '-' then cs else c :: cs), x.isDigit = false := by
      intro x hx
      split_ifs at hx
      · exact hd x (List.mem_cons_of_mem _ hx)
      · exact hd x hx
    generalize (if c = '+' ∨ c = '-' then cs else c :: cs) = t at ht
    have hhex : hasHexPrefix t = false := by
      unfold hasHexPrefix
      split
      · rename_i a b x y
        have ha := ht a (List.mem_cons_self _ _)
        rw [decide_eq_false_iff_not]
        rintro ⟨rfl, -⟩
        revert ha
        decide
      · rfl
    rw [hhex]
    have hsd := readDigits_sawdigits t ⟨false, false, false, 0, 0⟩ ht rfl
    simp only [Bool.false_eq_true, if_false]
    rw [hsd]
    simp

/-! ### Integers as float64, and Atoi on digits -/

theorem F64.ofInt_natCast (k : Nat) (hk : k < 2 ^ 53) : F64.ofInt (k : Int) = F64.ofNat k := by
  unfold F64.ofInt F64.ofNat
  have h1 : roundFix (k : Int).natAbs 1 = k * 2 ^ 1074 := by
    rw [Int.natAbs_ofNat]
    exact roundFix_exact k 1 (k * 2 ^ 1074) (by decide) (by ring) ⟨k, 1074, rfl, hk⟩
  rw [h1]
  have h2 : decide ((k : Int) < 0) = false := by
    rw [decide_eq_false_iff_not]
    exact Int.not_lt.mpr (Int.ofNat_nonneg k)
  rw [h2]

theorem digitsVal_isSome (d : List Char) (hd : ∀ x ∈ d, x.isDigit = true) :
    ∀ acc, ∃ v, digitsVal d acc = some v := by
  induction d with
  | nil => intro acc; exact ⟨acc, rfl⟩
  | cons c cs ih =>
    intro acc
    unfold digitsVal
    rw [if_pos (hd c (List.mem_cons_self _ _))]
    exact ih (fun x hx => hd x (List.mem_cons_of_mem _ hx)) _

theorem Atoi_digits (d : List Char) (hne : d ≠ []) (hd : ∀ x ∈ d, x.isDigit = true) :
    ∃ v, digitsVal d 0 = some v ∧
      Atoi d = if v < 2 ^ 63 then some (v : Int) else none := by
  obtain ⟨v, hv⟩ := digitsVal_isSome d hd 0
  refine ⟨v, hv, ?_⟩
  cases d with
  | nil => exact absurd rfl hne
  | cons c cs =>
    have hc := hd c (List.mem_cons_self _ _)
    have h1 : c ≠ '-' := by intro e; rw [e] at hc; revert hc; decide
    have h2 : c ≠ '+' := by intro e; rw [e] at hc; revert hc; decide
    unfold Atoi
    simp only [h1, h2, or_self, if_false]
    rw [if_neg (by simp), hv]

/-- Two records on one line, without a line break, are one occurrence of the
pattern: the greedy capacity group runs up to the last `B` that is followed by
`, RAID `, so a single sample is written, with the number and capacity of the
first record and the RAID level and status of the second. -/
theorem driveSamples_one_line :
    driveSamples 0
        "logicaldrive 1 (279.4 GB, RAID 1, OK) logicaldrive 2 (1.5 TB, RAID 0, Failed)" =
      some [⟨0, 1, 1, 286105, 0⟩] := by
  decide

theorem normalize_eq_some (slot : Int) (r : LogicalDriveRecord) (w : DriveSample)
    (h : normalize slot r = some w) :
    ∃ c, ParseCapacity r.capacityRaw = some c ∧
      w = ⟨slot, r.number, ParseStatus r.statusRaw, c, raidLevel r.raidLevelRaw⟩ := by
  unfold normalize at h
  cases hc : ParseCapacity r.capacityRaw with
  | none => rw [hc] at h; cases h
  | some c => rw [hc] at h; cases h; exact ⟨c, rfl, rfl⟩

/-! ## The claims -/

/-- C1 as stated fails: "1e400" is a valid decimal number and the result is the
sentinel -1, not the magnitude; on "0.99999999999999999999 MB" the result is 1,
while the magnitude truncated toward zero is 0. -/
theorem ParseCapacity_not_exact_magnitude :
    isDecimalNumber "1e400".toList = true ∧ ParseCapacity "1e400 MB" = some (-1) ∧
      isDecimalNumber "0.99999999999999999999".toList = true ∧
      ParseCapacity "0.99999999999999999999 MB" = some 1 := by
  refine ⟨by decide, by decide, by decide, by decide⟩

/-- C1 (amended): for every capacity text "<magnitude> <unit>" whose magnitude
`strconv.ParseFloat` accepts with a finite value `f` (the binary64 nearest to
the magnitude, here `n * 2^(-1074)` with sign `neg`) and whose unit begins with
T, G or M, if `f` times 1048576 (T), 1024 (G) or 1 (M) truncated toward zero is
below `2^63` in absolute value, then `ParseCapacity` returns that truncated
product. In particular "1.5 TB" gives 1572864, "279.4 GB" gives 286105 and
"512 MB" gives 512. -/
theorem ParseCapacity_scales_float (mag unit : List Char) (neg : Bool) (n k : Nat)
    (hmag : ' ' ∉ mag) (hpf : ParseFloat mag = some (F64.fin neg n))
    (hunit : (unit.head? = some 'T' ∧ k = 1048576) ∨ (unit.head? = some 'G' ∧ k = 1024) ∨
      (unit.head? = some 'M' ∧ k = 1))
    (hrange : n * k / 2 ^ 1074 < 2 ^ 63) :
    ParseCapacity (String.mk (mag ++ ' ' :: unit)) =
        some (if neg then -((n * k / 2 ^ 1074 : Nat) : Int) else ((n * k / 2 ^ 1074 : Nat) : Int)) ∧
      ParseCapacity "1.5 TB" = some 1572864 ∧ ParseCapacity "279.4 GB" = some 286105 ∧
      ParseCapacity "512 MB" = some 512 := by
  refine ⟨?_, by decide, by decide, by decide⟩
  obtain ⟨hrep, -⟩ := ParseFloat_fin mag neg n hpf
  have hlt : n * k < overflowBound := by
    have h1 : n * k < 2 ^ 63 * 2 ^ 1074 :=
      (Nat.div_lt_iff_lt_mul (Nat.pow_pos (by decide))).mp hrange
    have h2 : (2 : Nat) ^ 63 * 2 ^ 1074 ≤ overflowBound := by decide
    exact Nat.lt_of_lt_of_le h1 h2
  have hto : (String.mk (mag ++ ' ' :: unit)).toList = mag ++ ' ' :: unit := rfl
  dsimp only [ParseCapacity]
  rw [hto, Cut_append mag unit ' ' hmag]
  dsimp only
  rw [hpf]
  dsimp only
  rw [if_neg (by simp)]
  rcases hunit with ⟨hu, rfl⟩ | ⟨hu, rfl⟩ | ⟨hu, rfl⟩
  · cases unit with
    | nil => cases hu
    | cons u us =>
      simp only [List.head?_cons, Option.some.injEq] at hu
      subst hu
      dsimp only
      have h1024 : n * 1024 < overflowBound := by omega
      have e : n * 1024 * 1024 = n * 1048576 := by ring
      rw [if_pos rfl, F64.mul_1024 neg n hrep h1024,
        F64.mul_1024 neg (n * 1024) (Representable_mul_two_pow n 10 hrep) (by rw [e]; exact hlt),
        e, F64.toInt_fin neg _ hrange]
  · cases unit with
    | nil => cases hu
    | cons u us =>
      simp only [List.head?_cons, Option.some.injEq] at hu
      subst hu
      dsimp only
      rw [if_neg (by decide), if_pos rfl, F64.mul_1024 neg n hrep hlt, F64.toInt_fin neg _ hrange]
  · cases unit with
    | nil => cases hu
    | cons u us =>
      simp only [List.head?_cons, Option.some.injEq] at hu
      subst hu
      dsimp only
      rw [Nat.mul_one] at hrange
      rw [if_neg (by decide), if_neg (by decide), if_pos rfl, F64.toInt_fin neg _ hrange,
        Nat.mul_one]

/-- Witness of C1 (amended) at "1.5 TB": the magnitude 1.5 is `3 * 2^1073` units. -/
theorem ParseCapacity_scales_float_witness :
    ' ' ∉ "1.5".toList ∧ ParseFloat "1.5".toList = some (F64.fin false (3 * 2 ^ 1073)) ∧
      "TB".toList.head? = some 'T' ∧ 3 * 2 ^ 1073 * 1048576 / 2 ^ 1074 < 2 ^ 63 ∧
      ParseCapacity (String.mk ("1.5".toList ++ ' ' :: "TB".toList)) = some 1572864 :=
  ⟨by decide, by decide, rfl, by decide,
    (ParseCapacity_scales_float "1.5".toList "TB".toList false (3 * 2 ^ 1073) 1048576
      (by decide) (by decide) (Or.inl ⟨rfl, rfl⟩) (by decide)).1.trans (by decide)⟩

/-- C2 as stated fails: the text before the first space of "0x1p4 GB" is a
hexadecimal literal, not a decimal number, and `ParseCapacity` returns 16384, not -1. -/
theorem ParseCapacity_hexadecimal_magnitude :
    ¬ ∀ s : String, isDecimalNumber (Cut s.toList ' ').1 = false → ParseCapacity s = some (-1) := by
  intro h
  have h1 := h "0x1p4 GB" (by decide)
  have h2 : ParseCapacity "0x1p4 GB" = some 16384 := by decide
  rw [h2] at h1
  cases h1

/-- C2 (amended): on every string without a space, and on every string whose
text before the first space is rejected by `strconv.ParseFloat`,
`ParseCapacity` returns the sentinel -1; `ParseFloat` rejects in particular
every text without a decimal digit that is not a spelling of infinity or NaN;
so the result is -1 on "garbage" and "abc GB". -/
theorem ParseCapacity_sentinel (s : String)
    (h : ' ' ∉ s.toList ∨ ParseFloat (Cut s.toList ' ').1 = none) :
    ParseCapacity s = some (-1) ∧
      (∀ t : String, special (Cut t.toList ' ').1 = none →
        (∀ c ∈ (Cut t.toList ' ').1, c.isDigit = false) → ParseCapacity t = some (-1)) ∧
      ParseCapacity "garbage" = some (-1) ∧ ParseCapacity "abc GB" = some (-1) := by
  have key : ∀ t : String, ParseFloat (Cut t.toList ' ').1 = none →
      ParseCapacity t = some (-1) := by
    intro t ht
    dsimp only [ParseCapacity]
    rw [ht]
  refine ⟨?_, fun t hsp hd => key t (ParseFloat_none_of_no_digit _ hsp hd),
    by decide, by decide⟩
  rcases h with h | h
  · dsimp only [ParseCapacity]
    cases hpf : ParseFloat (Cut s.toList ' ').1 with
    | none => rfl
    | some num =>
      have hnf := (Cut_not_found s.toList ' ').mpr h
      exact if_pos (by rw [hnf]; exact Bool.false_ne_true)
  · exact key s h

/-- Witness of C2 (amended) at "abc GB", whose magnitude `ParseFloat` rejects. -/
theorem ParseCapacity_sentinel_witness :
    (' ' ∉ "abc GB".toList ∨ ParseFloat (Cut "abc GB".toList ' ').1 = none) ∧
      ParseCapacity "abc GB" = some (-1) :=
  ⟨Or.inr (by decide), (ParseCapacity_sentinel "abc GB" (Or.inr (by decide))).1⟩

/-- C3: when the listing command succeeds, `CollectControllerCount` returns, in
textual order, the numbers of the occurrences of `Slot <digits>` whose digits
parse as an `int` and skips the others (the occurrences follow one another in
the text without overlap); it sets the controller-count gauge to
the number of occurrences found, not to the number of slots returned, and
leaves the drive gauges alone; so the count is at least the length of the
returned list, and strictly greater when the digits of some occurrence do not
parse, which happens exactly when their value is `2^63` or more. On a listing with "Slot 0" and "Slot 3" it returns
[0, 3] with count 2; on "Slot 99999999999999999999" followed by "Slot 1" it
returns [1] with count 2. -/
theorem CollectControllerCount_slots_and_count (env : Env) (m : Metrics) (out : String)
    (h : env.ctrlAllShow = some out) :
    (CollectControllerCount env m).1 =
        (FindAllSubmatch controllerSlotRegex out).filterMap
          (fun mt => Atoi (mt.getD 1 "").toList) ∧
      Occurs controllerSlotRegex out.toList (FindAllSubmatch controllerSlotRegex out) ∧
      (CollectControllerCount env m).2 =
        { m with numControllers := F64.ofInt (FindAllSubmatch controllerSlotRegex out).length } ∧
      ((FindAllSubmatch controllerSlotRegex out).length < 2 ^ 53 →
        (CollectControllerCount env m).2.numControllers =
          F64.ofNat (FindAllSubmatch controllerSlotRegex out).length) ∧
      (∀ mt ∈ FindAllSubmatch controllerSlotRegex out, ∃ (d : List Char) (v : Nat),
        mt = [String.mk ("Slot ".toList ++ d), String.mk d] ∧ d ≠ [] ∧
          (∀ x ∈ d, x.isDigit = true) ∧ digitsVal d 0 = some v ∧
          Atoi (mt.getD 1 "").toList = if v < 2 ^ 63 then some (v : Int) else none) ∧
      (CollectControllerCount env m).1.length ≤ (FindAllSubmatch controllerSlotRegex out).length ∧
      ((∃ mt ∈ FindAllSubmatch controllerSlotRegex out, Atoi (mt.getD 1 "").toList = none) →
        (CollectControllerCount env m).1.length <
          (FindAllSubmatch controllerSlotRegex out).length) ∧
      (CollectControllerCount exampleEnv NewMetrics).1 = [0, 3] ∧
      (CollectControllerCount exampleEnv NewMetrics).2.numControllers = F64.ofNat 2 ∧
      (CollectControllerCount ⟨some "Slot 99999999999999999999\nSlot 1", fun _ => none⟩
        NewMetrics).1 = [1] ∧
      (CollectControllerCount ⟨some "Slot 99999999999999999999\nSlot 1", fun _ => none⟩
        NewMetrics).2.numControllers = F64.ofNat 2 := by
  have h1 : (CollectControllerCount env m).1 =
      (FindAllSubmatch controllerSlotRegex out).filterMap
        (fun mt => Atoi (mt.getD 1 "").toList) := by
    rw [CollectControllerCount_fst, h]; rfl
  have h2 : (CollectControllerCount env m).2 =
      { m with numControllers := F64.ofInt (FindAllSubmatch controllerSlotRegex out).length } := by
    unfold CollectControllerCount; rw [h]
  refine ⟨h1, FindAllSubmatch_occurs _ out, h2, ?_, ?_, ?_, ?_,
    by decide, by decide, by decide, by decide⟩
  · intro hlen
    rw [h2]
    exact F64.ofInt_natCast _ hlen
  · intro mt hmt
    obtain ⟨d, rfl, hne, hd⟩ := controllerSlot_shape out mt hmt
    obtain ⟨v, hv, ha⟩ := Atoi_digits d hne hd
    exact ⟨d, v, rfl, hne, hd, hv, ha⟩
  · rw [h1]; exact List.length_filterMap_le _ _
  · intro hex; rw [h1]; exact filterMap_length_lt _ _ hex

/-- Witness of C3 on the example host. -/
theorem CollectControllerCount_slots_and_count_witness :
    exampleEnv.ctrlAllShow = some exampleCtrlOutput ∧
      (CollectControllerCount exampleEnv NewMetrics).1 =
        (FindAllSubmatch controllerSlotRegex exampleCtrlOutput).filterMap
          (fun mt => Atoi (mt.getD 1 "").toList) :=
  ⟨rfl, (CollectControllerCount_slots_and_count exampleEnv NewMetrics exampleCtrlOutput rfl).1⟩

/-- C4: when the command succeeds, `CollectLogicalDrives` processes the
occurrences of the logical-drive pattern in textual order (they follow one
another in the text without overlap): the occurrences
whose number does not parse as an `int` are skipped, each other one is
normalised to (ParseStatus status, ParseCapacity capacity, raid) with raid the
integer value of the label or -1, and the triples are written under
(slot, number) one after the other; there is no panic. On the two example lines
(one record per line, as `ssacli` prints them) the samples are
(1, 0, 286105, 1) and (2, 1, 1572864, 0); a label "0+1" gives
RAID -1; a drive number that overflows is skipped and the next record is kept. -/
theorem CollectLogicalDrives_writes_records (env : Env) (slot : Int) (m : Metrics)
    (out : String) (h : env.ldAllShow slot = some out) :
    (∃ ws, normalizeAll slot (parseLogicalDrives out) = some ws ∧
        CollectLogicalDrives env slot m = some (ws.foldl setDriveMetrics m)) ∧
      Occurs logicalDriveRegex out.toList (FindAllSubmatch logicalDriveRegex out) ∧
      driveSamples 0 exampleLdOutput = some [⟨0, 1, 0, 286105, 1⟩, ⟨0, 2, 1, 1572864, 0⟩] ∧
      (CollectLogicalDrives exampleEnv 0 NewMetrics).map
          (fun r => (r.ldStatus (0, 1), r.ldCapacity (0, 1), r.ldRaid (0, 1))) =
        some (some (F64.ofNat 0), some (F64.ofNat 286105), some (F64.ofNat 1)) ∧
      (CollectLogicalDrives exampleEnv 0 NewMetrics).map
          (fun r => (r.ldStatus (0, 2), r.ldCapacity (0, 2), r.ldRaid (0, 2))) =
        some (some (F64.ofNat 1), some (F64.ofNat 1572864), some (F64.ofNat 0)) ∧
      driveSamples 0 ("logicaldrive 1 (279.4 GB, RAID 1, OK)\n" ++
          "logicaldrive 2 (1.5 TB, RAID 0, Failed)") =
        some [⟨0, 1, 0, 286105, 1⟩, ⟨0, 2, 1, 1572864, 0⟩] ∧
      driveSamples 7 "logicaldrive 1 (279.4 GB, RAID 0+1, OK)" = some [⟨7, 1, 0, 286105, -1⟩] ∧
      driveSamples 0 ("logicaldrive 99999999999999999999 (279.4 GB, RAID 1, OK)\n" ++
          "logicaldrive 2 (1.5 TB, RAID 0, Failed)") = some [⟨0, 2, 1, 1572864, 0⟩] := by
  refine ⟨?_, FindAllSubmatch_occurs _ out, by decide, by decide, by decide, by decide,
    by decide, by decide⟩
  obtain ⟨ws, hws⟩ := driveSamples_total slot out
  refine ⟨ws, hws, ?_⟩
  rw [CollectLogicalDrives_eq]
  unfold slotWrites
  rw [h]
  simp only [hws, Option.getD_some]

/-- Witness of C4 on the example host, slot 0. -/
theorem CollectLogicalDrives_writes_records_witness :
    exampleEnv.ldAllShow 0 = some exampleLdOutput ∧
      ∃ ws, normalizeAll 0 (parseLogicalDrives exampleLdOutput) = some ws ∧
        CollectLogicalDrives exampleEnv 0 NewMetrics = some (ws.foldl setDriveMetrics NewMetrics) :=
  ⟨rfl, (CollectLogicalDrives_writes_records exampleEnv 0 NewMetrics exampleLdOutput rfl).1⟩

/-- C5 as stated fails: a record whose capacity does not parse is not dropped,
all three values are written and the capacity gauge holds the sentinel -1; a
capacity that parses can be negative and is stored as such. -/
theorem CollectLogicalDrives_stores_sentinel :
    ParseCapacity "abc GB" = some (-1) ∧
      (CollectLogicalDrives ⟨none, fun _ => some "logicaldrive 1 (abc GB, RAID 1, OK)"⟩ 0
          NewMetrics).map (fun r => (r.ldStatus (0, 1), r.ldCapacity (0, 1), r.ldRaid (0, 1))) =
        some (some (F64.ofNat 0), some (F64.ofInt (-1)), some (F64.ofNat 1)) ∧
      F64.ofInt (-1) = F64.fin true (1 * 2 ^ 1074) ∧
      (CollectLogicalDrives ⟨none, fun _ => some "logicaldrive 1 (-5 GB, RAID 1, OK)"⟩ 0
          NewMetrics).map (fun r => r.ldCapacity (0, 1)) =
        some (some (F64.fin true (5120 * 2 ^ 1074))) := by
  refine ⟨by decide, by decide, by decide, by decide⟩

/-- C5 (amended): `CollectLogicalDrives` never drops a record because of its
capacity. For every occurrence of the pattern whose drive number `n` parses, the
call ends without panic with a status, a capacity and a RAID value stored under
(slot, n), all three taken from one occurrence with that number, and the
capacity stored is the value `ParseCapacity` returned for it, whatever it is
(the sentinel -1 included). -/
theorem CollectLogicalDrives_writes_every_record (env : Env) (slot : Int) (m : Metrics)
    (out : String) (mt : List String) (n : Int) (h : env.ldAllShow slot = some out)
    (hmt : mt ∈ FindAllSubmatch logicalDriveRegex out)
    (hn : Atoi (mt.getD 1 "").toList = some n) :
    ∃ r mt' c, CollectLogicalDrives env slot m = some r ∧
      mt' ∈ FindAllSubmatch logicalDriveRegex out ∧ Atoi (mt'.getD 1 "").toList = some n ∧
      ParseCapacity (mt'.getD 2 "") = some c ∧
      r.ldStatus (slot, n) = some (F64.ofInt (ParseStatus (mt'.getD 4 ""))) ∧
      r.ldCapacity (slot, n) = some (F64.ofInt c) ∧
      r.ldRaid (slot, n) = some (F64.ofInt (raidLevel (mt'.getD 3 ""))) := by
  obtain ⟨ws, hws⟩ := driveSamples_total slot out
  have hrec : (⟨n, mt.getD 2 "", mt.getD 3 "", mt.getD 4 ""⟩ : LogicalDriveRecord) ∈
      parseLogicalDrives out := by
    unfold parseLogicalDrives
    exact List.mem_filterMap.mpr ⟨mt, hmt, by rw [hn]; rfl⟩
  obtain ⟨w, hw, hnw⟩ := normalizeAll_mem_left slot _ ws hws _ hrec
  have hwkey : (w.slot, w.number) = (slot, n) := by
    obtain ⟨c, -, rfl⟩ := normalize_eq_some slot _ w hnw
    rfl
  obtain ⟨v, hv⟩ := lastWrite_isSome ws w hw
  rw [hwkey] at hv
  obtain ⟨hvmem, hvkey⟩ := lastWrite_mem ws _ v hv
  obtain ⟨r', hr', hnr'⟩ := normalizeAll_mem slot _ ws hws v hvmem
  unfold parseLogicalDrives at hr'
  obtain ⟨mt', hmt', hmap⟩ := List.mem_filterMap.mp hr'
  cases ha : Atoi (mt'.getD 1 "").toList with
  | none => rw [ha] at hmap; cases hmap
  | some n' =>
    rw [ha] at hmap
    simp only [Option.map_some', Option.some.injEq] at hmap
    subst hmap
    obtain ⟨c, hc, rfl⟩ := normalize_eq_some slot _ v hnr'
    have hn' : n' = n := congrArg Prod.snd hvkey
    subst hn'
    have hcall : CollectLogicalDrives env slot m = some (ws.foldl setDriveMetrics m) := by
      rw [CollectLogicalDrives_eq]
      unfold slotWrites
      rw [h]
      simp only [hws, Option.getD_some]
    refine ⟨_, mt', c, hcall, hmt', ha, hc, ?_, ?_, ?_⟩
    · rw [foldl_set_ldStatus, hv]
    · rw [foldl_set_ldCapacity, hv]
    · rw [foldl_set_ldRaid, hv]

/-- Witness of C5 (amended) on the record whose capacity does not parse. -/
theorem CollectLogicalDrives_writes_every_record_witness :
    ["logicaldrive 1 (abc GB, RAID 1, OK)", "1", "abc GB", "1", "OK"] ∈
        FindAllSubmatch logicalDriveRegex "logicaldrive 1 (abc GB, RAID 1, OK)" ∧
      Atoi "1".toList = some 1 ∧
      ∃ r mt' c, CollectLogicalDrives
          ⟨none, fun _ => some "logicaldrive 1 (abc GB, RAID 1, OK)"⟩ 0 NewMetrics = some r ∧
        mt' ∈ FindAllSubmatch logicalDriveRegex "logicaldrive 1 (abc GB, RAID 1, OK)" ∧
        Atoi (mt'.getD 1 "").toList = some 1 ∧
        ParseCapacity (mt'.getD 2 "") = some c ∧
        r.ldStatus (0, 1) = some (F64.ofInt (ParseStatus (mt'.getD 4 ""))) ∧
        r.ldCapacity (0, 1) = some (F64.ofInt c) ∧
        r.ldRaid (0, 1) = some (F64.ofInt (raidLevel (mt'.getD 3 ""))) :=
  ⟨by decide, by decide,
    CollectLogicalDrives_writes_every_record
      ⟨none, fun _ => some "logicaldrive 1 (abc GB, RAID 1, OK)"⟩ 0 NewMetrics
      "logicaldrive 1 (abc GB, RAID 1, OK)"
      ["logicaldrive 1 (abc GB, RAID 1, OK)", "1", "abc GB", "1", "OK"] 1 rfl
      (by decide) (by decide)⟩

/-- C6: `ParseStatus s` is 0 exactly when `s` is the string "OK"; every other
string (the empty string, "Failed", "Degraded" among them) gives 1, so the
status code is always 0 or 1. -/
theorem ParseStatus_zero_iff_ok (s : String) :
    (ParseStatus s = 0 ↔ s = "OK") ∧ (ParseStatus s = 1 ↔ s ≠ "OK") ∧
      (ParseStatus s = 0 ∨ ParseStatus s = 1) ∧
      ParseStatus "OK" = 0 ∧ ParseStatus "" = 1 ∧ ParseStatus "Failed" = 1 ∧
      ParseStatus "Degraded" = 1 := by
  unfold ParseStatus
  by_cases h : s = "OK"
  · simp [h]
  · simp [h]

/-- C7: partial failure isolation. In a poll cycle where the listing succeeds
and the logical-drive command fails for slot `f`, `Collect` ends without panic;
the resulting store is the one obtained with `f` removed from the list of
slots; no entry of slot `f` is changed; and for every discovered slot `g` the
entries of `g` are those that processing the output of `g` alone would leave.
On the example host (slot 0 succeeds, slot 3 fails) the drives of slot 0 are
updated and nothing is stored for slot 3. -/
theorem Collect_isolates_failed_slot (env : Env) (m : Metrics) (out : String) (f : Int)
    (h : env.ctrlAllShow = some out) (hf : env.ldAllShow f = none) :
    (∃ r, Collect env m = some r ∧
        ((parseControllerSlots out).filter (fun i => decide (i ≠ f))).foldlM
          (fun st idx => CollectLogicalDrives env idx st)
          (CollectControllerCount env m).2 = some r ∧
        (∀ n, r.ldStatus (f, n) = m.ldStatus (f, n) ∧ r.ldCapacity (f, n) = m.ldCapacity (f, n) ∧
          r.ldRaid (f, n) = m.ldRaid (f, n)) ∧
        (∀ g ∈ parseControllerSlots out, ∃ rg, CollectLogicalDrives env g m = some rg ∧
          ∀ n, r.ldStatus (g, n) = rg.ldStatus (g, n) ∧
            r.ldCapacity (g, n) = rg.ldCapacity (g, n) ∧ r.ldRaid (g, n) = rg.ldRaid (g, n))) ∧
      (Collect exampleEnv NewMetrics).map
          (fun r => (r.ldStatus (0, 1), r.ldCapacity (0, 1), r.ldRaid (0, 1))) =
        some (some (F64.ofNat 0), some (F64.ofNat 286105), some (F64.ofNat 1)) ∧
      (Collect exampleEnv NewMetrics).map
          (fun r => (r.ldStatus (0, 2), r.ldCapacity (0, 2), r.ldRaid (0, 2))) =
        some (some (F64.ofNat 1), some (F64.ofNat 1572864), some (F64.ofNat 0)) ∧
      (Collect exampleEnv NewMetrics).map
          (fun r => (r.ldStatus (3, 1), r.ldCapacity (3, 1), r.ldRaid (3, 1))) =
        some (none, none, none) := by
  refine ⟨?_, by decide, by decide, by decide⟩
  have hslots : (CollectControllerCount env m).1 = parseControllerSlots out := by
    rw [CollectControllerCount_fst, h]
  obtain ⟨hg1, hg2, hg3⟩ := CollectControllerCount_gauges env m
  refine ⟨_, Collect_eq env m, ?_, ?_, ?_⟩
  · rw [foldlM_CollectLogicalDrives, cycleWrites_filter env _ f hf, hslots]
  · intro n
    have hnone : lastWrite (cycleWrites env (CollectControllerCount env m).1) (f, n) = none :=
      lastWrite_none_of_slot _ _ (fun w hw e => (cycleWrites_slot env _ w hw).2 (by
        have e' : w.slot = f := e
        rw [e']; exact hf))
    rw [foldl_set_ldStatus, foldl_set_ldCapacity, foldl_set_ldRaid, hnone, hg1, hg2, hg3]
    exact ⟨rfl, rfl, rfl⟩
  · intro g hg
    refine ⟨_, CollectLogicalDrives_eq env g m, ?_⟩
    intro n
    rw [foldl_set_ldStatus, foldl_set_ldCapacity, foldl_set_ldRaid,
      foldl_set_ldStatus, foldl_set_ldCapacity, foldl_set_ldRaid, hslots,
      lastWrite_cycle env _ g hg n, hg1, hg2, hg3]
    exact ⟨rfl, rfl, rfl⟩

/-- Witness of C7 on the example host, where the command fails for slot 3. -/
theorem Collect_isolates_failed_slot_witness :
    exampleEnv.ctrlAllShow = some exampleCtrlOutput ∧ exampleEnv.ldAllShow 3 = none ∧
      ∃ r, Collect exampleEnv NewMetrics = some r ∧
        ∀ n, r.ldStatus (3, n) = NewMetrics.ldStatus (3, n) ∧
          r.ldCapacity (3, n) = NewMetrics.ldCapacity (3, n) ∧
          r.ldRaid (3, n) = NewMetrics.ldRaid (3, n) :=
  ⟨rfl, rfl, by
    obtain ⟨r, h1, -, h3, -⟩ :=
      (Collect_isolates_failed_slot exampleEnv NewMetrics exampleCtrlOutput 3 rfl rfl).1
    exact ⟨r, h1, h3⟩⟩

/-- C8: a poll cycle is idempotent. For every initial store and every fixed
outcome of the commands, `Collect` ends without panic, and running it again on
the resulting store gives that same store (controller count and every status,
capacity and RAID entry), also when slots or drive numbers repeat. -/
theorem Collect_idempotent (env : Env) (m : Metrics) :
    ∃ r, Collect env m = some r ∧ Collect env r = some r := by
  refine ⟨_, Collect_eq env m, ?_⟩
  rw [Collect_eq env]
  have hslots : ∀ a b : Metrics, (CollectControllerCount env a).1 =
      (CollectControllerCount env b).1 := by
    intro a b; rw [CollectControllerCount_fst, CollectControllerCount_fst]
  generalize hr : List.foldl setDriveMetrics (CollectControllerCount env m).2
    (cycleWrites env (CollectControllerCount env m).1) = r
  rw [hslots r m]
  obtain ⟨hg1, hg2, hg3⟩ := CollectControllerCount_gauges env r
  congr 1
  apply Metrics.ext_fields
  · rw [foldl_set_numControllers, CollectControllerCount_count, ← hr, foldl_set_numControllers,
      CollectControllerCount_count]
    cases env.ctrlAllShow <;> rfl
  · funext l
    rw [foldl_set_ldStatus, hg1]
    cases hl : lastWrite (cycleWrites env (CollectControllerCount env m).1) l with
    | none => rfl
    | some w => rw [← hr, foldl_set_ldStatus, hl]
  · funext l
    rw [foldl_set_ldCapacity, hg2]
    cases hl : lastWrite (cycleWrites env (CollectControllerCount env m).1) l with
    | none => rfl
    | some w => rw [← hr, foldl_set_ldCapacity, hl]
  · funext l
    rw [foldl_set_ldRaid, hg3]
    cases hl : lastWrite (cycleWrites env (CollectControllerCount env m).1) l with
    | none => rfl
    | some w => rw [← hr, foldl_set_ldRaid, hl]

/-- C10: on every string that ends in the character `B` (as every capacity
group of the logical-drive pattern does) `ParseCapacity` either returns -1
before it reads the suffix, or the text after the first space is not empty, so
that `suf[0]` is in bounds and there is no panic. The precondition is needed:
on "5 " the suffix is empty and `suf[0]` panics. -/
theorem ParseCapacity_suffix_in_bounds (s : String) (h : s.toList.getLast? = some 'B') :
    ((((Cut s.toList ' ').2.2 = false ∨ ParseFloat (Cut s.toList ' ').1 = none) ∧
        ParseCapacity s = some (-1)) ∨ (Cut s.toList ' ').2.1 ≠ []) ∧
      ParseCapacity s ≠ none ∧
      (∀ out mt, mt ∈ FindAllSubmatch logicalDriveRegex out →
        (mt.getD 2 "").toList.getLast? = some 'B') ∧
      ParseCapacity "5 " = none := by
  refine ⟨?_, ParseCapacity_ne_none s h, ?_, by decide⟩
  · by_cases hf : (Cut s.toList ' ').2.2 = true
    · exact Or.inr (Cut_suffix_ne_nil s.toList ' ' 'B' (by decide) h hf)
    · left
      have hf' : (Cut s.toList ' ').2.2 = false := by simpa using hf
      refine ⟨Or.inl hf', ?_⟩
      dsimp only [ParseCapacity]
      cases ParseFloat (Cut s.toList ' ').1 with
      | none => rfl
      | some num => exact if_pos (by rw [hf']; exact Bool.false_ne_true)
  · intro out mt hmt
    obtain ⟨whole, d, c, r, st, rfl, -, -⟩ := logicalDrive_shape out mt hmt
    simp

/-- Witness of C10 at the capacity text "279.4 GB". -/
theorem ParseCapacity_suffix_in_bounds_witness :
    "279.4 GB".toList.getLast? = some 'B' ∧ ParseCapacity "279.4 GB" ≠ none :=
  ⟨by decide, (ParseCapacity_suffix_in_bounds "279.4 GB" (by decide)).2.1⟩

end HpeSsacli
